import Mathlib

/-!
# Verification of the DevOS intent-to-widget pipeline

Shallow embedding of the content classifiers, payload normalizers, intent
resolver, enrichment extractors and workspace session state of the DevOS
repository (`src/services/tamboToWorkspace.ts`, `src/App.tsx`,
`src/store/workspaceStore.ts`, the widget normalizers in
`src/components/Tools` and the unnamed table/JSON viewer modules), together
with theorems settling the frozen specification claims.

JavaScript runtime values are modelled by `JsVal`; numbers are modelled as
exact rationals (`Rat`) plus a separate `nan` constructor, which is faithful
for every integer-valued quantity the claims exercise (IEEE-754 rounding of
non-integral literals is the one model boundary, noted where relevant).
`JSON.parse` / `JSON.stringify` are modelled from their ECMA-404 behaviour by
`parseJson` / `stringifyChars` below.
-/

set_option maxRecDepth 4000

namespace DevOS

/-- Characters that are awkward to quote under the file's lexical rules. -/
def obrace : Char := Char.ofNat 123
def cbrace : Char := Char.ofNat 125
def squote : Char := Char.ofNat 39
def bslash : Char := Char.ofNat 92
def dquote : Char := Char.ofNat 34

/-- A JavaScript runtime value, as handled by the widget normalizers
(`unknown` in the TypeScript source).  Object fields are kept in insertion
order, matching `Object.keys` enumeration for the string-keyed records the
pipeline manipulates. -/
inductive JsVal where
  | undef
  | null
  | bool (b : Bool)
  | num (q : Rat)
  | nan
  | str (s : String)
  | arr (elems : List JsVal)
  | obj (fields : List (String × JsVal))

namespace JsVal

mutual
/-- Structural (deep) equality of runtime values. -/
def beqVal : JsVal → JsVal → Bool
  | undef, undef => true
  | null, null => true
  | bool a, bool b => a = b
  | num a, num b => a.num = b.num && a.den = b.den
  | nan, nan => true
  | str a, str b => a = b
  | arr a, arr b => beqList a b
  | obj a, obj b => beqFields a b
  | _, _ => false

def beqList : List JsVal → List JsVal → Bool
  | [], [] => true
  | a :: as, b :: bs => beqVal a b && beqList as bs
  | _, _ => false

def beqFields : List (String × JsVal) → List (String × JsVal) → Bool
  | [], [] => true
  | a :: as, b :: bs => a.1 = b.1 && beqVal a.2 b.2 && beqFields as bs
  | _, _ => false
end

mutual
theorem beqVal_iff : ∀ a b : JsVal, beqVal a b = true ↔ a = b
  | undef, b => by cases b <;> simp [beqVal]
  | null, b => by cases b <;> simp [beqVal]
  | bool x, b => by cases b <;> simp [beqVal]
  | num x, b => by
    cases b <;> simp [beqVal]
    constructor
    · rintro ⟨h1, h2⟩
      exact Rat.ext h1 h2
    · rintro rfl
      exact ⟨rfl, rfl⟩
  | nan, b => by cases b <;> simp [beqVal]
  | str x, b => by cases b <;> simp [beqVal]
  | arr xs, b => by
    cases b <;> simp [beqVal]
    exact beqList_iff xs _
  | obj fs, b => by
    cases b <;> simp [beqVal]
    exact beqFields_iff fs _

theorem beqList_iff : ∀ a b : List JsVal, beqList a b = true ↔ a = b
  | [], b => by cases b <;> simp [beqList]
  | x :: xs, b => by
    cases b with
    | nil => simp [beqList]
    | cons y ys =>
      simp only [beqList, Bool.and_eq_true, List.cons.injEq]
      rw [beqVal_iff, beqList_iff]

theorem beqFields_iff : ∀ a b : List (String × JsVal), beqFields a b = true ↔ a = b
  | [], b => by cases b <;> simp [beqFields]
  | x :: xs, b => by
    cases b with
    | nil => simp [beqFields]
    | cons y ys =>
      simp only [beqFields, Bool.and_eq_true, List.cons.injEq, decide_eq_true_eq]
      rw [beqVal_iff, beqFields_iff]
      constructor
      · rintro ⟨⟨h1, h2⟩, h3⟩
        exact ⟨Prod.ext h1 h2, h3⟩
      · rintro ⟨h, h3⟩
        exact ⟨⟨congrArg Prod.fst h, congrArg Prod.snd h⟩, h3⟩
end

instance : DecidableEq JsVal := fun a b =>
  decidable_of_iff (beqVal a b = true) (beqVal_iff a b)

/-- `typeof v === 'number'` (`NaN` is a number in JavaScript). -/
def isNumberTy : JsVal → Bool
  | num _ => true
  | nan => true
  | _ => false

/-- `typeof v === 'object'` (arrays and `null` included, as in JavaScript). -/
def isObjectTy : JsVal → Bool
  | null => true
  | arr _ => true
  | obj _ => true
  | _ => false

def isString : JsVal → Bool
  | str _ => true
  | _ => false

def isArray : JsVal → Bool
  | arr _ => true
  | _ => false

/-- `v == null` in JavaScript: true for both `null` and `undefined`. -/
def isNullish : JsVal → Bool
  | undef => true
  | null => true
  | _ => false

/-- Property read `v[key]` for the record-like values the pipeline uses;
reading a property off a primitive yields `undefined` (string/number wrapper
properties such as `.length` are outside the model and never exercised). -/
def getField : JsVal → String → JsVal
  | obj fields, key =>
    match fields.find? (fun kv => kv.1 = key) with
    | some kv => kv.2
    | none => undef
  | _, _ => undef

/-- The `??` operator: take the right operand when the left is nullish. -/
def orNullish (a b : JsVal) : JsVal :=
  if a.isNullish then b else a

/-- JavaScript `<` restricted to the shapes the chart detector compares:
true only when both sides are non-NaN numbers and the first is smaller
(every comparison with `NaN` is false). -/
def jsLt : JsVal → JsVal → Bool
  | num a, num b => a < b
  | _, _ => false

end JsVal

/-! ## Character classes and string primitives -/

/-- JSON / JavaScript whitespace as used by `JSON.parse` (space, tab,
newline, carriage return). -/
def isJsonWs (c : Char) : Bool :=
  c = ' ' || c = '\t' || c = '\n' || c = '\r'

/-- Whitespace for `String.prototype.trim` and `\s`; the full Unicode class
is wider, but the pipeline's inputs only exercise these members. -/
def isJsWs (c : Char) : Bool :=
  c = ' ' || c = '\t' || c = '\n' || c = '\r' || c = '\x0b' || c = '\x0c'

/-- `String.prototype.trim` on a character list. -/
def jsTrimList (cs : List Char) : List Char :=
  ((cs.dropWhile isJsWs).reverse.dropWhile isJsWs).reverse

def jsTrim (s : String) : String :=
  ⟨jsTrimList s.data⟩

def isDigitCh (c : Char) : Bool :=
  '0' ≤ c && c ≤ '9'

def digitVal (c : Char) : Nat := c.toNat - '0'.toNat

/-! ## `JSON.stringify`

Modelled for the value shapes the claims quantify over: `null`, booleans,
integer-valued numbers (canonical base-10 form, as JavaScript prints safe
integers), strings (with the standard escaping of quote, backslash and
control characters) and nested arrays/objects.  `NaN` serializes to `null`
as in JavaScript.  Non-integral numbers and `undefined` have no faithful
rendering here (IEEE-754 shortest-round-trip formatting is not modelled);
the well-formedness predicate `wfPlain` used by the round-trip theorem
excludes them. -/

def hexDigitCh (n : Nat) : Char :=
  if n < 10 then Char.ofNat ('0'.toNat + n) else Char.ofNat ('a'.toNat + (n - 10))

/-- Escape one character the way `JSON.stringify` quotes string contents. -/
def escChar (c : Char) : List Char :=
  if c = dquote then [bslash, dquote]
  else if c = bslash then [bslash, bslash]
  else if c = '\n' then [bslash, 'n']
  else if c = '\r' then [bslash, 'r']
  else if c = '\t' then [bslash, 't']
  else if c = '\x08' then [bslash, 'b']
  else if c = '\x0c' then [bslash, 'f']
  else if c.toNat < 32 then
    [bslash, 'u', '0', '0', hexDigitCh (c.toNat / 16), hexDigitCh (c.toNat % 16)]
  else [c]

/-- Serialized string literal: quote, escaped contents, quote. -/
def strLitChars (s : String) : List Char :=
  dquote :: (s.data.flatMap escChar) ++ [dquote]

/-- Base-10 digits of a natural number, most significant first. -/
def natDigits (n : Nat) : List Char :=
  if h : n < 10 then [Char.ofNat ('0'.toNat + n)]
  else
    have : n / 10 < n := Nat.div_lt_self (by omega) (by omega)
    natDigits (n / 10) ++ [Char.ofNat ('0'.toNat + n % 10)]
  termination_by n

/-- Canonical decimal form of an integer (what JavaScript prints for safe
integers). -/
def intChars (i : Int) : List Char :=
  if i < 0 then '-' :: natDigits (-i).toNat else natDigits i.toNat

mutual
/-- `JSON.stringify`, producing a character list.  See the section comment
for the modelling boundary on non-integral numbers and `undefined`. -/
def stringifyChars : JsVal → List Char
  | .undef => []
  | .null => 'n' :: ['u', 'l', 'l']
  | .bool true => 't' :: ['r', 'u', 'e']
  | .bool false => 'f' :: ['a', 'l', 's', 'e']
  | .nan => 'n' :: ['u', 'l', 'l']
  | .num q =>
    if q.den = 1 then intChars q.num
    else intChars q.num ++ '/' :: natDigits q.den
  | .str s => strLitChars s
  | .arr xs => '[' :: stringifyElems xs ++ [']']
  | .obj fs => obrace :: stringifyFields fs ++ [cbrace]

def stringifyElems : List JsVal → List Char
  | [] => []
  | [x] => stringifyChars x
  | x :: y :: rest => stringifyChars x ++ ',' :: stringifyElems (y :: rest)

def stringifyFields : List (String × JsVal) → List Char
  | [] => []
  | [kv] => strLitChars kv.1 ++ ':' :: stringifyChars kv.2
  | kv :: kv₂ :: rest =>
    strLitChars kv.1 ++ ':' :: stringifyChars kv.2 ++ ',' :: stringifyFields (kv₂ :: rest)
end

/-- The separator-prefixed tail of a serialized element list. -/
def elemsTail : List JsVal → List Char
  | [] => []
  | y :: ys => ',' :: stringifyElems (y :: ys)

/-- The separator-prefixed tail of a serialized field list. -/
def fieldsTail : List (String × JsVal) → List Char
  | [] => []
  | kv :: fs => ',' :: stringifyFields (kv :: fs)

/-! ## `JSON.parse`

A strict ECMA-404 parser.  Recursion is bounded by an explicit fuel
parameter; `parseJsonChars` supplies fuel `2 * length + 2`, which
`parseVal_fuel_le` style lemmas below show is never the reason a valid
document is rejected. -/

def skipWs (cs : List Char) : List Char :=
  cs.dropWhile isJsonWs

def hexVal (c : Char) : Option Nat :=
  if isDigitCh c then some (digitVal c)
  else if 'A' ≤ c && c ≤ 'F' then some (10 + (c.toNat - 'A'.toNat))
  else if 'a' ≤ c && c ≤ 'f' then some (10 + (c.toNat - 'a'.toNat))
  else none

/-- Body of a JSON string literal (the opening quote already consumed),
returning the decoded string and the remainder after the closing quote. -/
def parseStringBody : List Char → Option (String × List Char)
  | [] => none
  | c :: rest =>
    if c = dquote then some ("", rest)
    else if c = bslash then
      match rest with
      | [] => none
      | e :: rest₂ =>
        if e = dquote then (parseStringBody rest₂).map (fun sr => (⟨dquote :: sr.1.data⟩, sr.2))
        else if e = bslash then (parseStringBody rest₂).map (fun sr => (⟨bslash :: sr.1.data⟩, sr.2))
        else if e = '/' then (parseStringBody rest₂).map (fun sr => (⟨'/' :: sr.1.data⟩, sr.2))
        else if e = 'n' then (parseStringBody rest₂).map (fun sr => (⟨'\n' :: sr.1.data⟩, sr.2))
        else if e = 'r' then (parseStringBody rest₂).map (fun sr => (⟨'\r' :: sr.1.data⟩, sr.2))
        else if e = 't' then (parseStringBody rest₂).map (fun sr => (⟨'\t' :: sr.1.data⟩, sr.2))
        else if e = 'b' then (parseStringBody rest₂).map (fun sr => (⟨'\x08' :: sr.1.data⟩, sr.2))
        else if e = 'f' then (parseStringBody rest₂).map (fun sr => (⟨'\x0c' :: sr.1.data⟩, sr.2))
        else if e = 'u' then
          match rest₂ with
          | h₁ :: h₂ :: h₃ :: h₄ :: rest₃ =>
            match hexVal h₁, hexVal h₂, hexVal h₃, hexVal h₄ with
            | some a, some b, some c', some d =>
              let n := ((a * 16 + b) * 16 + c') * 16 + d
              (parseStringBody rest₃).map (fun sr => (⟨Char.ofNat n :: sr.1.data⟩, sr.2))
            | _, _, _, _ => none
          | _ => none
        else none
    else if c.toNat < 32 then none
    else (parseStringBody rest).map (fun sr => (⟨c :: sr.1.data⟩, sr.2))
  termination_by cs => cs.length

def digitsToNat (ds : List Char) : Nat :=
  ds.foldl (fun a c => a * 10 + digitVal c) 0

/-- JSON integer part: `0`, or a nonzero digit followed by digits. -/
def parseIntDigits : List Char → Option (List Char × List Char)
  | [] => none
  | c :: rest =>
    if c = '0' then some ([c], rest)
    else if isDigitCh c then some (c :: rest.takeWhile isDigitCh, rest.dropWhile isDigitCh)
    else none

/-- The optional fraction part (a dot must be followed by digits). -/
def parseFracPart : List Char → Option (List Char × List Char)
  | '.' :: r =>
    let ds := r.takeWhile isDigitCh
    if ds = [] then none else some (ds, r.dropWhile isDigitCh)
  | cs => some ([], cs)

/-- The optional exponent part (`e`/`E`, optional sign, digits). -/
def parseExpPart : List Char → Option (Int × List Char)
  | e :: r =>
    if e = 'e' || e = 'E' then
      let er : Bool × List Char :=
        match r with
        | '+' :: r₂ => (false, r₂)
        | '-' :: r₂ => (true, r₂)
        | _ => (false, r)
      let ds := er.2.takeWhile isDigitCh
      if ds = [] then none
      else
        let mag : Int := digitsToNat ds
        some (if er.1 then -mag else mag, er.2.dropWhile isDigitCh)
    else some (0, e :: r)
  | [] => some (0, [])

/-- The unsigned part of the JSON number grammar (integer digits, optional
fraction, optional exponent), evaluated exactly into a rational. -/
def parseNumberBody (cs : List Char) : Option (Rat × List Char) :=
  match parseIntDigits cs with
  | none => none
  | some (ids, cs₂) =>
    match parseFracPart cs₂ with
    | none => none
    | some (fds, cs₃) =>
      match parseExpPart cs₃ with
      | none => none
      | some (e, cs₄) =>
        let mant : Int := (digitsToNat ids * 10 ^ fds.length + digitsToNat fds : Nat)
        let scaled : Rat :=
          if 0 ≤ e then mkRat (mant * (10 : Int) ^ e.toNat) (10 ^ fds.length)
          else mkRat mant (10 ^ fds.length * 10 ^ (-e).toNat)
        some (scaled, cs₄)

/-- JSON number grammar, evaluated exactly into a rational (JavaScript
rounds to the nearest IEEE-754 double; exact on the integer-valued numbers
the claims exercise). -/
def parseNumber (cs : List Char) : Option (JsVal × List Char) :=
  let signed : Bool × List Char :=
    match cs with
    | '-' :: r => (true, r)
    | _ => (false, cs)
  match parseNumberBody signed.2 with
  | none => none
  | some (v, cs₄) => some (.num (if signed.1 then -v else v), cs₄)

mutual
/-- One JSON value, leading whitespace allowed, returning the remainder. -/
def parseVal : Nat → List Char → Option (JsVal × List Char)
  | 0, _ => none
  | fuel + 1, cs =>
    match skipWs cs with
    | [] => none
    | c :: rest =>
      if c = obrace then
        match skipWs rest with
        | c₂ :: rest₂ =>
          if c₂ = cbrace then some (.obj [], rest₂)
          else (parseFields fuel rest).map (fun fr => (.obj fr.1, fr.2))
        | [] => none
      else if c = '[' then
        match skipWs rest with
        | c₂ :: rest₂ =>
          if c₂ = ']' then some (.arr [], rest₂)
          else (parseElems fuel rest).map (fun er => (.arr er.1, er.2))
        | [] => none
      else if c = dquote then (parseStringBody rest).map (fun sr => (.str sr.1, sr.2))
      else if c = 't' then
        match rest with
        | 'r' :: 'u' :: 'e' :: r => some (.bool true, r)
        | _ => none
      else if c = 'f' then
        match rest with
        | 'a' :: 'l' :: 's' :: 'e' :: r => some (.bool false, r)
        | _ => none
      else if c = 'n' then
        match rest with
        | 'u' :: 'l' :: 'l' :: r => some (.null, r)
        | _ => none
      else if c = '-' || isDigitCh c then parseNumber (c :: rest)
      else none

/-- Comma-separated values up to the closing `]` (non-empty array bodies). -/
def parseElems : Nat → List Char → Option (List JsVal × List Char)
  | 0, _ => none
  | fuel + 1, cs =>
    match parseVal fuel cs with
    | none => none
    | some (v, r) =>
      match skipWs r with
      | c :: r₂ =>
        if c = ',' then (parseElems fuel r₂).map (fun er => (v :: er.1, er.2))
        else if c = ']' then some ([v], r₂)
        else none
      | [] => none

/-- Comma-separated `"key": value` members up to the closing brace
(non-empty object bodies). -/
def parseFields : Nat → List Char → Option (List (String × JsVal) × List Char)
  | 0, _ => none
  | fuel + 1, cs =>
    match skipWs cs with
    | c :: rest =>
      if c = dquote then
        match parseStringBody rest with
        | some (k, r) =>
          match skipWs r with
          | ':' :: r₂ =>
            match parseVal fuel r₂ with
            | some (v, r₃) =>
              match skipWs r₃ with
              | c₂ :: r₄ =>
                if c₂ = ',' then (parseFields fuel r₄).map (fun fr => ((k, v) :: fr.1, fr.2))
                else if c₂ = cbrace then some ([(k, v)], r₄)
                else none
              | [] => none
            | none => none
          | _ => none
        | none => none
      else none
    | [] => none
end

/-- `JSON.parse` on a character list: one value, then only whitespace. -/
def parseJsonChars (cs : List Char) : Option JsVal :=
  match parseVal (2 * cs.length + 2) cs with
  | some (v, rest) => if skipWs rest = [] then some v else none
  | none => none

/-- `JSON.parse`, succeeding iff the whole string is a valid JSON document. -/
def parseJson (s : String) : Option JsVal :=
  parseJsonChars s.data

/-! ## `extractJsonFromText` (src/services/tamboToWorkspace.ts)

Whole-text strict parse first; on failure scan from the first `{` or `[`
(whichever comes first), tracking bracket depth and string-literal state
exactly as the source loop does, and strict-parse the bracketed substring. -/

/-- `String.prototype.indexOf` for a single character. -/
def firstIdx (c : Char) : List Char → Option Nat
  | [] => none
  | x :: rest => if x = c then some 0 else (firstIdx c rest).map (· + 1)

/-- The bracket-matching loop of `extractJsonFromText`: starting at the
opening bracket with `depth = 0`, returns the number of characters up to and
including the close bracket at which the depth first returns to zero, or
`none` when the input ends first.  `prev` carries the previous character of
the scanned text (the source reads `trimmed[i-1]`; its value before any
character has been consumed is irrelevant because `inStr` starts as `none`). -/
def scanLoop (op cl : Char) (depth : Int) (inStr : Option Char) (prev : Char) :
    List Char → Option Nat
  | [] => none
  | c :: rest =>
    match inStr with
    | some q =>
      if c = q && prev ≠ bslash then (scanLoop op cl depth none c rest).map (· + 1)
      else (scanLoop op cl depth (some q) c rest).map (· + 1)
    | none =>
      if c = dquote || c = squote then (scanLoop op cl depth (some c) c rest).map (· + 1)
      else if c = op then (scanLoop op cl (depth + 1) none c rest).map (· + 1)
      else if c = cl then
        if depth - 1 = 0 then some 1
        else (scanLoop op cl (depth - 1) none c rest).map (· + 1)
      else (scanLoop op cl depth none c rest).map (· + 1)

/-- `extractJsonFromText`: best-effort JSON-substring extraction from chat
text. -/
def extractJsonFromText (text : String) : Option String :=
  let trimmed := jsTrim text
  if trimmed = "" then none
  else if (parseJson trimmed).isSome then some trimmed
  else
    let cs := trimmed.data
    let startObj := firstIdx obrace cs
    let startArr := firstIdx '[' cs
    let chosen : Option (Nat × Char × Char) :=
      match startObj, startArr with
      | some o, some a => if o < a then some (o, obrace, cbrace) else some (a, '[', ']')
      | some o, none => some (o, obrace, cbrace)
      | none, some a => some (a, '[', ']')
      | none, none => none
    match chosen with
    | none => none
    | some sc =>
      match scanLoop sc.2.1 sc.2.2 0 none ' ' (cs.drop sc.1) with
      | some n =>
        let candidate : String := ⟨(cs.drop sc.1).take n⟩
        if (parseJson candidate).isSome then some candidate else none
      | none => none

/-! ## Workspace session state (src/store/workspaceStore.ts, src/types.ts)

`ToolType` follows the enum in `src/types.ts` plus the `ChartViewer` member
referenced by `src/App.tsx` and `src/services/tamboToWorkspace.ts`. -/

inductive ToolType where
  | ApiTester | JsonViewer | FormGenerator | TableViewer | ChartBuilder
  | ChartViewer | CodeGenerator | LogViewer | MarkdownViewer | EnvManager
  | TerminalSimulator
  deriving DecidableEq, Repr

/-- The enum's string value (used in tool titles). -/
def ToolType.name : ToolType → String
  | .ApiTester => "ApiTester"
  | .JsonViewer => "JsonViewer"
  | .FormGenerator => "FormGenerator"
  | .TableViewer => "TableViewer"
  | .ChartBuilder => "ChartBuilder"
  | .ChartViewer => "ChartViewer"
  | .CodeGenerator => "CodeGenerator"
  | .LogViewer => "LogViewer"
  | .MarkdownViewer => "MarkdownViewer"
  | .EnvManager => "EnvManager"
  | .TerminalSimulator => "TerminalSimulator"

/-- A widget payload: the plain record the resolver builds. -/
abbrev Payload := List (String × JsVal)

def Payload.get (p : Payload) (key : String) : JsVal :=
  (JsVal.obj p).getField key

/-- The object-spread override `\x7b ...p, key: v \x7d`: an existing key
keeps its position with the new value, a new key is appended. -/
def Payload.set (p : Payload) (key : String) (v : JsVal) : Payload :=
  if (p.find? (fun kv => kv.1 = key)).isSome then
    p.map (fun kv => if kv.1 = key then (key, v) else kv)
  else p ++ [(key, v)]

structure ToolInstance where
  id : String
  type : ToolType
  title : String
  payload : Payload
  timestamp : Int

structure ChatMessage where
  id : String
  role : String
  content : String

structure WorkspaceState where
  activeToolId : Option String
  openTools : List ToolInstance
  chatHistory : List ChatMessage

/-- `createTool`: appends a new instance (id and timestamp are produced by
`Math.random` / `Date.now` in the source and are inputs here), focuses it,
and logs a system chat message. -/
def createTool (s : WorkspaceState) (newId msgId : String) (now : Int)
    (type : ToolType) (payload : Payload) : WorkspaceState :=
  let inst : ToolInstance :=
    { id := newId, type := type
      title := type.name ++ " #" ++ toString (s.openTools.length + 1)
      payload := payload, timestamp := now }
  { s with
    openTools := s.openTools ++ [inst]
    activeToolId := some inst.id
    chatHistory := s.chatHistory ++
      [{ id := msgId, role := "system"
         content := "Directly initialized " ++ type.name ++ " tool." }] }

/-- `closeTool`: drop the instance(s) with the given id; when the closed id
was active, the new active id is the last remaining instance's id, else
`null`. -/
def closeTool (s : WorkspaceState) (id : String) : WorkspaceState :=
  let remaining := s.openTools.filter (fun t => ¬ t.id = id)
  { s with
    openTools := remaining
    activeToolId :=
      if s.activeToolId = some id then
        match remaining.getLast? with
        | some t => some t.id
        | none => none
      else s.activeToolId }

/-! ## Intent resolver (src/services/tamboToWorkspace.ts, src/App.tsx) -/

/-- Message content as delivered on the thread: either a plain string or an
ordered list of parts, each with a `type` tag and a `text` field (absent
fields modelled by `""`). -/
inductive MsgContent where
  | str (s : String)
  | parts (ps : List (String × String))

structure ThreadMsg where
  id : String
  role : String
  /-- The attached component directive, when present and with a truthy
  `componentName`: name and props. -/
  component : Option (String × Payload)
  content : MsgContent

/-- Text of one content part (`part?.type === 'text' && part?.text ? part.text : ''`). -/
def partText (p : String × String) : String :=
  if p.1 = "text" && p.2 ≠ "" then p.2 else ""

/-- `contentToText` (also the body of `getLastUserMessageText`). -/
def contentToText : MsgContent → String
  | .str s => jsTrim s
  | .parts ps => jsTrim (String.intercalate "\n" (ps.map partText))

/-- Newest-first search for the last user message (loop from the end of the
array in the source). -/
def getLastUserMessageContent (msgs : List ThreadMsg) : Option MsgContent :=
  (msgs.reverse.find? (fun m => m.role = "user")).map (·.content)

def getLastUserMessageText (msgs : List ThreadMsg) : String :=
  match getLastUserMessageContent msgs with
  | some c => contentToText c
  | none => ""

/-- `/\[\d{4}-\d{2}-\d{2}T\d{2}:\d{2}/i` matching at the head of a
character list. -/
def isoAt : List Char → Bool
  | '[' :: a :: b :: c :: d :: '-' :: e :: f :: '-' :: g :: h :: t :: i :: j :: ':' :: k :: l :: _ =>
    isDigitCh a && isDigitCh b && isDigitCh c && isDigitCh d &&
    isDigitCh e && isDigitCh f && isDigitCh g && isDigitCh h &&
    (t = 'T' || t = 't') && isDigitCh i && isDigitCh j && isDigitCh k && isDigitCh l
  | _ => false

/-- Case-insensitive literal prefix strip. -/
def ciStrip : List Char → List Char → Option (List Char)
  | [], cs => some cs
  | _ :: _, [] => none
  | w :: ws, c :: cs => if w.toLower = c.toLower then ciStrip ws cs else none

def levelWords : List (List Char) :=
  [['I','N','F','O'], ['E','R','R','O','R'], ['W','A','R','N'],
   ['D','E','B','U','G'], ['A','U','T','H'], ['C','R','O','N'],
   ['W','O','R','K','E','R']]

/-- `/\]\s*(INFO|ERROR|WARN|DEBUG|AUTH|CRON|WORKER)\s/i` matching at the
head of a character list: closing bracket, optional whitespace, a level
word, then one whitespace character. -/
def levelAt : List Char → Bool
  | c :: rest =>
    c = ']' &&
      (let r := rest.dropWhile isJsWs
       levelWords.any fun w =>
         match ciStrip w r with
         | some (c₂ :: _) => isJsWs c₂
         | _ => false)
  | [] => false

/-- `regex.test s` for a head-anchored pattern: match at any position. -/
def testAnywhere (p : List Char → Bool) (s : String) : Bool :=
  s.data.tails.any p

/-- The per-message test of the logs-like scan: a user message with
non-empty text matching the ISO-timestamp or closing-bracket-level pattern. -/
def logSignatureMatch (m : ThreadMsg) : Bool :=
  m.role = "user" &&
    (let t := contentToText m.content
     t ≠ "" && (testAnywhere isoAt t || testAnywhere levelAt t))

/-- `getLastUserMessageTextLikeLogs`: newest-first scan for a user message
whose text matches the ISO-timestamp or bracketed-level pattern; on no
match, fall back to the last user message's text. -/
def getLastUserMessageTextLikeLogs (msgs : List ThreadMsg) : String :=
  match msgs.reverse.find? logSignatureMatch with
  | some m => contentToText m.content
  | none => getLastUserMessageText msgs

/-- The string literal `"{}"`. -/
def emptyObjLit : String := ⟨[obrace, cbrace]⟩

/-- `tamboComponentToTool`: directive name + props to (widget type, payload);
unknown names map to nothing. -/
def tamboComponentToTool (componentName : String) (props : Payload) :
    Option (ToolType × Payload) :=
  let p := fun k => props.get k
  if componentName = "Graph" then
    some (.ChartBuilder, [("data", p "data"), ("type", p "type")])
  else if componentName = "ChartViewer" then
    some (.ChartViewer, [("data", p "data")])
  else if componentName = "Table" then
    some (.TableViewer,
      [("data", (p "data").orNullish (p "jsonContent")), ("columns", p "columns")])
  else if componentName = "CodeBlock" then
    some (.CodeGenerator,
      [("code", p "code"), ("language", p "language"), ("title", p "title")])
  else if componentName = "CodeGenerator" then
    some (.CodeGenerator,
      [("task", p "task"), ("language", p "language"), ("framework", p "framework")])
  else if componentName = "JsonView" then
    some (.JsonViewer,
      [("data", ((p "data").orNullish (p "jsonContent")).orNullish (.str emptyObjLit))])
  else if componentName = "ApiRequest" then
    let hs : List (String × JsVal) :=
      (if (p "contentType").isString then [("Content-Type", p "contentType")] else []) ++
      (if (p "authorization").isString then [("Authorization", p "authorization")] else [])
    some (.ApiTester,
      [("method", p "method"), ("url", p "url"),
       ("headers", if hs.length = 0 then .undef else .obj hs), ("body", p "body")])
  else if componentName = "Markdown" then
    some (.MarkdownViewer,
      [("content", (p "content").orNullish (p "markdownContent")),
       ("markdownContent", (p "markdownContent").orNullish (p "content"))])
  else if componentName = "FormBuilder" then
    let roleOk : Bool :=
      match p "roleOptions" with
      | .arr xs => xs.length > 0
      | _ => false
    let given : Bool :=
      p "firstName" ≠ .undef || p "lastName" ≠ .undef || p "email" ≠ .undef ||
        roleOk || p "active" ≠ .undef
    let schema : Payload :=
      if given then
        (if p "firstName" ≠ .undef then [("firstName", p "firstName")] else []) ++
        (if p "lastName" ≠ .undef then [("lastName", p "lastName")] else []) ++
        (if p "email" ≠ .undef then [("email", p "email")] else []) ++
        (if roleOk then [("role", p "roleOptions")] else []) ++
        (if p "active" ≠ .undef then [("active", p "active")] else [])
      else
        [("firstName", .str "John"), ("lastName", .str "Doe"),
         ("email", .str "john@example.com"),
         ("role", .arr [.str "Admin", .str "User", .str "Guest"]),
         ("active", .bool true)]
    some (.FormGenerator, [("schema", .obj schema)])
  else if componentName = "LogViewer" then
    some (.LogViewer, [("logs", p "logs")])
  else if componentName = "EnvManager" then
    some (.EnvManager, [("envContent", (p "envContent").orNullish (p "env"))])
  else if componentName = "Terminal" then
    some (.TerminalSimulator, [("command", (p "command").orNullish (.str ""))])
  else none

/-- The emptiness test of the LogViewer enrichment branch in `WorkspaceUI`. -/
def logsIsEmpty : JsVal → Bool
  | .undef => true
  | .null => true
  | .str s => jsTrim s = ""
  | .arr xs => xs.length = 0
  | _ => false

/-- The LogViewer enrichment branch of the `thread.messages` effect
(src/App.tsx): when the mapped payload's `logs` is empty, substitute the
text of the user message that looks like logs (newest-first scan with
fallback). -/
def enrichLogViewerPayload (payload : Payload) (msgs : List ThreadMsg) : Payload :=
  let logs := payload.get "logs"
  if logsIsEmpty logs then
    let userText := getLastUserMessageTextLikeLogs msgs
    if userText ≠ "" then payload.set "logs" (.str userText) else payload
  else payload

/-! ### Directive consumption (the `thread.messages` effect)

The effect walks `thread.messages`; an assistant message with a truthy
`componentName` whose id is not yet in `openedMessageIds` is mapped through
`tamboComponentToTool`; when the mapping succeeds the (enriched) payload is
passed to `createTool` and the id is recorded.  The per-type enrichment
branches between mapping and creation only rewrite payload fields and never
change whether `createTool` runs, so the consumption model below records,
per processed message, the triggering message id and created widget type. -/

structure ResolverState where
  /-- `openedMessageIds` (a `Set<string>` ref). -/
  consumed : List String
  /-- Created widgets, in creation order, tagged by triggering message id. -/
  created : List (String × ToolType)

def processMsg (st : ResolverState) (m : ThreadMsg) : ResolverState :=
  match m.component with
  | none => st
  | some (name, props) =>
    if m.role = "assistant" && name ≠ "" && !st.consumed.contains m.id then
      match tamboComponentToTool name props with
      | some tp => { consumed := m.id :: st.consumed
                     created := st.created ++ [(m.id, tp.1)] }
      | none => st
    else st

def processMessages (st : ResolverState) (msgs : List ThreadMsg) : ResolverState :=
  msgs.foldl processMsg st

def initialResolverState : ResolverState := ⟨[], []⟩

/-- Widgets created for a given triggering message id. -/
def createdFor (st : ResolverState) (mid : String) : Nat :=
  (st.created.filter (fun c => c.1 = mid)).length

/-! ## Table viewer normalizer (the unnamed TableViewer module, part_004) -/

namespace TableViewer

def isPlainObject : JsVal → Bool
  | .obj _ => true
  | _ => false

def TABLE_KEYS : List String :=
  ["users", "data", "items", "rows", "results", "records", "list"]

/-- Does this value qualify as rows for the container-key search: a
non-empty array whose first element is a non-array object? -/
def rowsArray : JsVal → Option (List JsVal)
  | .arr (first :: rest) =>
    if isPlainObject first then some (first :: rest) else none
  | _ => none

/-- `extractRows`: array-of-objects directly, or the first conventional
container key holding one, or the first object value that is one. -/
def extractRows (data : JsVal) : Option (List JsVal) :=
  if data.isNullish then none
  else match data with
    | .arr [] => some []
    | .arr (first :: rest) =>
      if isPlainObject first then some (first :: rest) else none
    | .obj fields =>
      match TABLE_KEYS.findSome? (fun key => rowsArray ((JsVal.obj fields).getField key)) with
      | some rows => some rows
      | none =>
        match (fields.map (·.2)).find? (fun v => (rowsArray v).isSome) with
        | some v => rowsArray v
        | none => none
    | _ => none

structure Normalized where
  rows : Option (List JsVal)
  error : Option String

/-- `normalizeInput`: strings are strict-parsed (parse failure reports
"Invalid JSON"), then rows are extracted ("Data is not tabular" when no
row-bearing shape is found). -/
def normalizeInput (raw : JsVal) : Normalized :=
  let dataRes : Option JsVal :=
    match raw with
    | .str s => parseJson s
    | v => some v
  match dataRes with
  | none => ⟨none, some "Invalid JSON"⟩
  | some data =>
    match extractRows data with
    | none => ⟨none, some "Data is not tabular"⟩
    | some rows => ⟨some rows, none⟩

end TableViewer

/-! ## Chart viewer detector (src/components/Tools/ChartViewer.tsx) -/

namespace ChartViewer

inductive ChartType where
  | bar | line | pie | area
  deriving DecidableEq, Repr

def MAX_ROWS : Nat := 500

/-- `isNumeric`: a number and not `NaN`. -/
def isNumeric : JsVal → Bool
  | .num _ => true
  | _ => false

/-- A non-empty array whose first element is a non-array object, sliced to
`MAX_ROWS`. -/
def rowsArray : JsVal → Option (List JsVal)
  | .arr (first :: rest) =>
    if TableViewer.isPlainObject first then some ((first :: rest).take MAX_ROWS) else none
  | _ => none

/-- `extractRows` of the chart viewer: conventional container keys are
`analytics`/`data`/`series`/`values`/`items`, and the object fallback picks
the first non-empty array value (then still requires its first element to be
a non-array object). -/
def extractRows (data : JsVal) : Option (List JsVal) :=
  if data.isNullish then none
  else match data with
    | .arr [] => some []
    | .arr (first :: rest) =>
      if TableViewer.isPlainObject first then some ((first :: rest).take MAX_ROWS) else none
    | .obj fields =>
      match ["analytics", "data", "series", "values", "items"].findSome?
          (fun key => rowsArray ((JsVal.obj fields).getField key)) with
      | some rows => some rows
      | none =>
        match (fields.map (·.2)).find? (fun v =>
            match v with | .arr (_ :: _) => true | _ => false) with
        | some v => rowsArray v
        | none => none
    | _ => none

/-- `Object.keys` for the record-like first row (empty for primitives). -/
def jsKeys : JsVal → List String
  | .obj fields => fields.map (·.1)
  | _ => []

def labelCandidates : List String := ["name", "label", "day", "category", "id", "x"]

/-- `/^\d{4}-\d{2}-\d{2}/` at the head. -/
def isoDateAt : List Char → Bool
  | a :: b :: c :: d :: '-' :: e :: f :: '-' :: g :: h :: _ =>
    isDigitCh a && isDigitCh b && isDigitCh c && isDigitCh d &&
    isDigitCh e && isDigitCh f && isDigitCh g && isDigitCh h
  | _ => false

def dayMonthWords : List (List Char) :=
  [['M','o','n'], ['T','u','e'], ['W','e','d'], ['T','h','u'], ['F','r','i'],
   ['S','a','t'], ['S','u','n'], ['J','a','n'], ['F','e','b'], ['M','a','r'],
   ['A','p','r'], ['M','a','y'], ['J','u','n'], ['J','u','l'], ['A','u','g'],
   ['S','e','p'], ['O','c','t'], ['N','o','v'], ['D','e','c']]

/-- `/\d{1,2}\/\d{1,2}/` somewhere: a digit, a slash, a digit. -/
def digitSlashAt : List Char → Bool
  | a :: '/' :: b :: _ => isDigitCh a && isDigitCh b
  | _ => false

/-- The date/weekday/month test of the line-chart rule (`/^\d{4}-\d{2}-\d{2}|Mon|…|Dec|\d{1,2}\/\d{1,2}/i`). -/
def looksLikeTimeStr (s : String) : Bool :=
  isoDateAt s.data ||
    s.data.tails.any (fun t =>
      dayMonthWords.any (fun w => (ciStrip w t).isSome) || digitSlashAt t)

/-- The per-series monotone scan: every adjacent pair must be numbers
(`typeof` check, so `NaN` passes it) with no strict decrease (`NaN`
comparisons are false, so a `NaN` never fails the scan). -/
def monotoneFrom (prev : JsVal) : List JsVal → Bool
  | [] => true
  | next :: rest =>
    prev.isNumberTy && next.isNumberTy && !(JsVal.jsLt next prev) && monotoneFrom next rest

structure Columns where
  labelKey : String
  numericKeys : List String
  suggestedType : ChartType

/-- `detectColumns`: label key, numeric keys and the suggested chart kind. -/
def detectColumns (rows : List JsVal) : Columns :=
  match rows with
  | [] => ⟨"name", [], .bar⟩
  | first :: rest =>
    let keys := jsKeys first
    let labelKey :=
      match keys.find? (fun k => labelCandidates.contains k) with
      | some k => k
      | none =>
        match keys.find? (fun k => (first.getField k).isString) with
        | some k => k
        | none =>
          match keys with
          | [] => "name"
          | k :: _ => if k = "" then "name" else k
    let numericKeysFirst := keys.filter (fun k => k ≠ labelKey && isNumeric (first.getField k))
    let numericKeys :=
      if numericKeysFirst.length = 0 then
        let anyNumeric := keys.filter (fun k =>
          k ≠ labelKey && (first :: rest).any (fun r => isNumeric (r.getField k)))
        if anyNumeric.length > 0 then anyNumeric else numericKeysFirst
      else numericKeysFirst
    let suggestedType : ChartType :=
      if numericKeys.length = 0 then .bar
      else if (first :: rest).length ≤ 10 && numericKeys.length = 1 then .pie
      else
        let xVal := first.getField labelKey
        let looksLikeTime :=
          match xVal with
          | .str s => looksLikeTimeStr s
          | _ => false
        let sorted :=
          (first :: rest).length ≥ 2 &&
            numericKeys.all (fun nk =>
              monotoneFrom (first.getField nk) (rest.map (fun r => r.getField nk)))
        if looksLikeTime || sorted then .line else .bar
    ⟨labelKey, numericKeys, suggestedType⟩

structure Normalized where
  rows : Option (List JsVal)
  error : Option String

/-- `normalizeInput` of the chart viewer. -/
def normalizeInput (raw : JsVal) : Normalized :=
  let dataRes : Option JsVal :=
    match raw with
    | .str s => parseJson s
    | v => some v
  match dataRes with
  | none => ⟨none, some "Invalid JSON"⟩
  | some data =>
    match extractRows data with
    | none => ⟨none, some "Cannot generate chart from input"⟩
    | some [] => ⟨some [], none⟩
    | some rows =>
      if (detectColumns rows).numericKeys.length = 0 then
        ⟨none, some "No numeric data available"⟩
      else ⟨some rows, none⟩

end ChartViewer

/-! ## JSON viewer normalizer (the unnamed JsonViewer module, part_006) -/

namespace JsonViewer

structure Normalized where
  parsed : Option JsVal
  error : Option String

/-- `normalizeData`: `data ?? jsonObject`; nullish input is the empty state
`({}, null)`; a plain (non-array) object passes through; a string is
strict-parsed (the thrown `SyntaxError`'s engine-specific message is
abstracted here); everything else is "Invalid JSON format". -/
def normalizeData (payload : Payload) : Normalized :=
  let raw := (payload.get "data").orNullish (payload.get "jsonObject")
  if raw.isNullish then ⟨some (.obj []), none⟩
  else match raw with
    | .obj fields => ⟨some (.obj fields), none⟩
    | .str s =>
      match parseJson s with
      | some v => ⟨some v, none⟩
      | none => ⟨none, some "Unexpected token in JSON"⟩
    | _ => ⟨none, some "Invalid JSON format"⟩

end JsonViewer

/-! ## Log block grouping (the LogViewer module in src/components/Tools) -/

namespace LogViewer

def ciWordAt (w : List Char) (cs : List Char) : Bool :=
  (ciStrip w cs).isSome

/-- Leftmost match of `/\[?(ERROR|WARN|INFO|DEBUG|SUCCESS)\]?/i`, returning
the captured level word.  The optional brackets never change which word the
leftmost match captures (a match that consumes `[` at position `p` captures
the same word as the bare-word match at `p + 1`, which position order visits
next), so the scan below checks the five alternatives at each position in
order. -/
def firstLevelWord : List Char → Option (List Char)
  | [] => none
  | c :: rest =>
    match [['E','R','R','O','R'], ['W','A','R','N'], ['I','N','F','O'],
           ['D','E','B','U','G'], ['S','U','C','C','E','S','S']].find?
        (fun w => ciWordAt w (c :: rest)) with
    | some w => some w
    | none => firstLevelWord rest

def ciContainsAny (ws : List (List Char)) (s : String) : Bool :=
  s.data.tails.any (fun t => ws.any (fun w => ciWordAt w t))

/-- `detectLevel`: the first bracketed/bare level token wins (it is always a
member of `LEVELS` after lowercasing, so the source's membership check never
falls through); otherwise keyword heuristics; otherwise "info". -/
def detectLevel (line : String) : String :=
  match firstLevelWord line.data with
  | some w => ⟨w.map Char.toLower⟩
  | none =>
    if ciContainsAny [['e','r','r','o','r'], ['e','x','c','e','p','t','i','o','n'],
        ['f','a','i','l','e','d'], ['f','a','t','a','l']] line then "error"
    else if ciContainsAny [['w','a','r','n'], ['w','a','r','n','i','n','g']] line then "warn"
    else if ciContainsAny [['d','e','b','u','g'], ['t','r','a','c','e']] line then "debug"
    else if ciContainsAny [['s','u','c','c','e','s','s'], ['o','k'],
        ['c','o','m','p','l','e','t','e','d']] line then "success"
    else "info"

/-- `isStackLine`: leading-whitespace `at ` or `... `, or `^\s+at\s`, or at
least two leading whitespace characters on a non-blank line. -/
def isStackLine (line : String) : Bool :=
  let cs := line.data
  let afterWs := cs.dropWhile isJsWs
  let alt1 :=
    (match afterWs with
     | 'a' :: 't' :: c :: _ => isJsWs c
     | _ => false) ||
    (match afterWs with
     | '.' :: '.' :: '.' :: c :: _ => isJsWs c
     | _ => false)
  let alt2 :=
    (match cs with
     | c :: _ => isJsWs c
     | [] => false) &&
    (match afterWs with
     | 'a' :: 't' :: c :: _ => isJsWs c
     | _ => false)
  let alt3 :=
    (match cs with
     | c₁ :: c₂ :: _ => isJsWs c₁ && isJsWs c₂
     | _ => false) && jsTrim line ≠ ""
  alt1 || alt2 || alt3

def containsLit (w : List Char) (s : String) : Bool :=
  s.data.tails.any (fun t => w.isPrefixOf t)

/-- `/at\s+\S+\s+\(/` at the head: by maximal-munch (each component's
follower cannot absorb the component's characters) the match is
deterministic. -/
def atFrameAt : List Char → Bool
  | 'a' :: 't' :: rest =>
    let w₁ := rest.takeWhile isJsWs
    let r₁ := rest.dropWhile isJsWs
    let n₁ := r₁.takeWhile (fun c => !isJsWs c)
    let r₂ := r₁.dropWhile (fun c => !isJsWs c)
    let w₂ := r₂.takeWhile isJsWs
    let r₃ := r₂.dropWhile isJsWs
    w₁ ≠ [] && n₁ ≠ [] && w₂ ≠ [] &&
      (match r₃ with
       | '(' :: _ => true
       | _ => false)
  | _ => false

/-- `/Error:|TypeError|ReferenceError|SyntaxError|at\s+\S+\s+\(/` (case
sensitive). -/
def looksLikeError (line : String) : Bool :=
  containsLit ['E','r','r','o','r',':'] line ||
  containsLit ['T','y','p','e','E','r','r','o','r'] line ||
  containsLit ['R','e','f','e','r','e','n','c','e','E','r','r','o','r'] line ||
  containsLit ['S','y','n','t','a','x','E','r','r','o','r'] line ||
  line.data.tails.any atFrameAt

structure LogBlock where
  id : Nat
  level : String
  lines : List String
  isStack : Bool
  raw : String
  deriving DecidableEq, Repr

/-- The absorption loop of a stack block: consume stack-shaped lines,
letting a blank line through only when the line after it is stack-shaped. -/
def absorbStack : List String → List String × List String
  | [] => ([], [])
  | l :: rest =>
    if isStackLine l then
      let ar := absorbStack rest
      (l :: ar.1, ar.2)
    else if jsTrim l = "" then
      match rest with
      | n :: _ =>
        if isStackLine n then
          let ar := absorbStack rest
          (l :: ar.1, ar.2)
        else ([], l :: rest)
      | [] => ([], [l])
    else ([], l :: rest)

/-- `parseLogs` (fuel-driven loop; `fuel = raw.length` suffices because each
iteration consumes at least one line).  The source's `line == null` guard is
vacuous over genuine string arrays and is omitted. -/
def parseLogsAux : Nat → Nat → List String → List LogBlock
  | 0, _, _ => []
  | _ + 1, _, [] => []
  | fuel + 1, id, line :: rest =>
    let level := detectLevel line
    let nextIsStack :=
      match rest with
      | n :: _ => isStackLine n
      | [] => false
    if looksLikeError line && nextIsStack then
      let ar := absorbStack rest
      { id := id, level := "error", lines := line :: ar.1, isStack := true
        raw := String.intercalate "\n" (line :: ar.1) } ::
        parseLogsAux fuel (id + 1) ar.2
    else
      { id := id, level := level, lines := [line], isStack := false, raw := line } ::
        parseLogsAux fuel (id + 1) rest

def parseLogs (raw : List String) : List LogBlock :=
  parseLogsAux raw.length 0 raw

end LogViewer

/-! ## Markdown block parser (src/components/Tools/MarkdownViewer.tsx) -/

namespace Markdown

/-- Single-character `String.prototype.split`. -/
def splitChar (sep : Char) : List Char → List (List Char)
  | [] => [[]]
  | c :: rest =>
    let r := splitChar sep rest
    if c = sep then [] :: r
    else
      match r with
      | h :: t => (c :: h) :: t
      | [] => [[c]]

def jsSplit (sep : Char) (s : String) : List String :=
  (splitChar sep s.data).map (fun cs => ⟨cs⟩)

def isWordCh (c : Char) : Bool :=
  c = '_' || isDigitCh c || ('a' ≤ c && c ≤ 'z') || ('A' ≤ c && c ≤ 'Z')

/-- `.replace(/\s+/g, '-')`: each maximal whitespace run becomes one hyphen. -/
def wsToHyphen (prevWs : Bool) : List Char → List Char
  | [] => []
  | c :: rest =>
    if isJsWs c then
      if prevWs then wsToHyphen true rest else '-' :: wsToHyphen true rest
    else c :: wsToHyphen false rest

/-- The global replace of each hyphen run (regex `-+`) by one hyphen. -/
def dashCollapse (prevDash : Bool) : List Char → List Char
  | [] => []
  | c :: rest =>
    if c = '-' then
      if prevDash then dashCollapse true rest else '-' :: dashCollapse true rest
    else c :: dashCollapse false rest

/-- `.replace(/^-|-$/g, '')`: one leading and one trailing hyphen. -/
def stripEdgeDash (cs : List Char) : List Char :=
  let cs₁ := match cs with
    | '-' :: rest => rest
    | other => other
  match cs₁.getLast? with
  | some '-' => cs₁.dropLast
  | _ => cs₁

/-- `slugify`: trim, lowercase, whitespace runs to hyphens, non-word
characters stripped, hyphen runs collapsed, edge hyphens removed, empty
falls back to "section". -/
def slugify (text : String) : String :=
  let cs := jsTrimList text.data
  let cs := cs.map Char.toLower
  let cs := wsToHyphen false cs
  let cs := cs.filter (fun c => isWordCh c || c = '-')
  let cs := dashCollapse false cs
  let cs := stripEdgeDash cs
  if cs = [] then "section" else ⟨cs⟩

/-- Heading-body match after the `#` run (`\s+(.+)$`): at least one
whitespace character, then at least one further character; by regex
backtracking the captured text is everything after the maximal whitespace
run, or — when only whitespace follows — the run's final character. -/
def headingText (rest : List Char) : Option (List Char) :=
  match rest with
  | [] => none
  | c :: cs =>
    if !isJsWs c then none
    else
      let t := (c :: cs).dropWhile isJsWs
      if t ≠ [] then some t
      else if cs ≠ [] then some [(c :: cs).getLast (by simp)]
      else none

/-- `^(#{1,6})\s+(.+)$`: the run of `#` and the captured body. -/
def headingOf (line : String) : Option (Nat × List Char) :=
  let cs := line.data
  let hashes := cs.takeWhile (fun c => c = '#')
  let n := hashes.length
  if 1 ≤ n && n ≤ 6 then
    (headingText (cs.drop n)).map (fun t => (n, t))
  else none

/-- `m[2].replace(/#+$/, '').trim()` as applied to a heading body. -/
def headingClean (t : List Char) : String :=
  jsTrim ⟨(t.reverse.dropWhile (fun c => c = '#')).reverse⟩

structure TocItem where
  level : Nat
  text : String
  id : String
  deriving DecidableEq, Repr

/-- `extractToc`: headings with slug ids, duplicate slugs numbered. -/
def extractTocAux : List (String × Nat) → List String → List TocItem
  | _, [] => []
  | idCount, line :: rest =>
    match headingOf line with
    | some (level, body) =>
      let text := headingClean body
      let id₀ := slugify text
      let seen := ((idCount.find? (fun kv => kv.1 = id₀)).map (·.2)).getD 0 + 1
      let id := if seen > 1 then id₀ ++ "-" ++ toString seen else id₀
      { level := level, text := text, id := id } ::
        extractTocAux ((id₀, seen) :: idCount.filter (fun kv => kv.1 ≠ id₀)) rest
    | none => extractTocAux idCount rest

def extractToc (content : String) : List TocItem :=
  extractTocAux [] (jsSplit '\n' content)

inductive Block where
  | h (level : Nat) (text : String) (id : String)
  | code (lang : String) (body : String)
  | blockquote (lines : List (Nat × String))
  | ul (items : List (Nat × String))
  | ol (items : List (Nat × String))
  | tasklist (items : List (Bool × String))
  | table (rows : List (List String))
  | hr
  | p (text : String)
  deriving DecidableEq, Repr

/-- The code-fence test `line.startsWith('3 backticks')`. -/
def fenceStart (line : String) : Bool :=
  match line.data with
  | '\x60' :: '\x60' :: '\x60' :: _ => true
  | _ => false

/-- `line.startsWith('>')`. -/
def quoteStart (line : String) : Bool :=
  match line.data with
  | '>' :: _ => true
  | _ => false

/-- `/^(>+)\s?(.*)$/` on a line already known to start with `>`. -/
def quoteLineOf (line : String) : Nat × String :=
  let cs := line.data
  let gt := cs.takeWhile (fun c => c = '>')
  let rest := cs.drop gt.length
  let rest := match rest with
    | c :: r => if isJsWs c then r else rest
    | [] => []
  (gt.length, ⟨rest⟩)

/-- `\s+(.*)$` after a consumed marker: at least one whitespace character,
then the remainder after the maximal whitespace run. -/
def afterGap (rest : List Char) : Option (List Char) :=
  match rest with
  | c :: _ => if isJsWs c then some (rest.dropWhile isJsWs) else none
  | [] => none

/-- `/^\s*[-*+]\s+\[([ x])\]\s+(.*)$/i`. -/
def taskItemOf (line : String) : Option (Bool × String) :=
  let cs := line.data.dropWhile isJsWs
  match cs with
  | b :: rest =>
    if b = '-' || b = '*' || b = '+' then
      match afterGap rest with
      | some ('[' :: m :: ']' :: rest₂) =>
        if m = ' ' || m = 'x' || m = 'X' then
          (afterGap rest₂).map (fun t => (m.toLower = 'x', (⟨t⟩ : String)))
        else none
      | _ => none
    else none
  | [] => none

/-- `/^\s*([-*+])\s+(.*)$/` (unordered item), returning indent and text. -/
def ulItemOf (line : String) : Option (Nat × String) :=
  let ws := line.data.takeWhile isJsWs
  match line.data.drop ws.length with
  | b :: rest =>
    if b = '-' || b = '*' || b = '+' then
      (afterGap rest).map (fun t => (ws.length, (⟨t⟩ : String)))
    else none
  | [] => none

/-- `/^\s*(\d+\.)\s+(.*)$/` (ordered item). -/
def olItemOf (line : String) : Option (Nat × String) :=
  let ws := line.data.takeWhile isJsWs
  let rest := line.data.drop ws.length
  let ds := rest.takeWhile isDigitCh
  if ds = [] then none
  else match rest.drop ds.length with
    | '.' :: rest₂ => (afterGap rest₂).map (fun t => (ws.length, (⟨t⟩ : String)))
    | _ => none

/-- Entry test `/^\s*[-*+]\s/` or `/^\s*\d+\.\s/`. -/
def listStart (line : String) : Bool :=
  let rest := line.data.dropWhile isJsWs
  (match rest with
   | b :: c :: _ => (b = '-' || b = '*' || b = '+') && isJsWs c
   | _ => false) ||
  (let ds := rest.takeWhile isDigitCh
   ds ≠ [] &&
     match rest.drop ds.length with
     | '.' :: c :: _ => isJsWs c
     | _ => false)

def isOlStart (line : String) : Bool :=
  let rest := line.data.dropWhile isJsWs
  let ds := rest.takeWhile isDigitCh
  ds ≠ [] &&
    match rest.drop ds.length with
    | '.' :: c :: _ => isJsWs c
    | _ => false

def isHrCh (c : Char) : Bool :=
  c = '-' || c = '*' || c = '_'

/-- `/^[-*_]\s*[-*_]\s*[-*_]*\s*$/` or `/^---+$/` on the trimmed line
(maximal-munch is exact here because no component can absorb its
follower's characters). -/
def hrTest (line : String) : Bool :=
  let cs := (jsTrim line).data
  (match cs with
   | c₁ :: rest =>
     isHrCh c₁ &&
       (match rest.dropWhile isJsWs with
        | c₂ :: rest₂ =>
          isHrCh c₂ &&
            ((((rest₂.dropWhile isJsWs).dropWhile isHrCh).dropWhile isJsWs) = [])
        | [] => false)
   | [] => false) ||
  (match cs with
   | '-' :: '-' :: '-' :: rest => rest.all (fun c => c = '-')
   | _ => false)

/-- Leading-`|` and trailing-`|` test on the trimmed line. -/
def isTableLine (line : String) : Bool :=
  let t := jsTrimList line.data
  (match t with
   | '|' :: _ => true
   | _ => false) &&
    (match t.getLast? with
     | some '|' => true
     | _ => false)

/-- The pipe-split cells: drop the first and last segment, trim the rest. -/
def tableCells (line : String) : List String :=
  ((jsSplit '|' line).drop 1).dropLast.map jsTrim

/-- `/^:?-+:?$/`. -/
def isSepCell (s : String) : Bool :=
  let cs := match s.data with
    | ':' :: rest => rest
    | other => other
  let cs := match cs.getLast? with
    | some ':' => cs.dropLast
    | _ => cs
  cs ≠ [] && cs.all (fun c => c = '-')

/-- `parseBlocks` (fuel-driven outer loop; every iteration consumes at least
one line, so `fuel = lines.length` suffices). -/
def parseBlocksAux : Nat → List String → List Block
  | 0, _ => []
  | _ + 1, [] => []
  | fuel + 1, line :: rest =>
    match headingOf line with
    | some (level, body) =>
      let text := headingClean body
      .h level text (slugify text) :: parseBlocksAux fuel rest
    | none =>
      if fenceStart line then
        let lang := jsTrim ⟨line.data.drop 3⟩
        let body := rest.takeWhile (fun l => !fenceStart l)
        let rest₂ := rest.drop body.length
        let rest₃ := match rest₂ with
          | _ :: r => r
          | [] => []
        .code lang (String.intercalate "\n" body) :: parseBlocksAux fuel rest₃
      else if quoteStart line then
        let qs := (line :: rest).takeWhile quoteStart
        let rest₂ := (line :: rest).drop qs.length
        .blockquote (qs.map quoteLineOf) :: parseBlocksAux fuel rest₂
      else if (taskItemOf line).isSome then
        let ts := (line :: rest).takeWhile (fun l => (taskItemOf l).isSome)
        let rest₂ := (line :: rest).drop ts.length
        .tasklist (ts.filterMap taskItemOf) :: parseBlocksAux fuel rest₂
      else if listStart line then
        let itemOf := if isOlStart line then olItemOf else ulItemOf
        let ls := (line :: rest).takeWhile (fun l => (itemOf l).isSome)
        let rest₂ := (line :: rest).drop ls.length
        (if isOlStart line then Block.ol (ls.filterMap itemOf)
         else Block.ul (ls.filterMap itemOf)) :: parseBlocksAux fuel rest₂
      else if hrTest line then
        .hr :: parseBlocksAux fuel rest
      else if isTableLine line then
        let tls := (line :: rest).takeWhile isTableLine
        let rest₂ := (line :: rest).drop tls.length
        let rows := (tls.map tableCells).filter (fun cells => cells.length > 0)
        let rows :=
          match rows with
          | r₀ :: r₁ :: rrest =>
            if r₁.all isSepCell then r₀ :: rrest else rows
          | _ => rows
        (if rows.length > 0 then
          [Block.table rows]
         else []) ++ parseBlocksAux fuel rest₂
      else if jsTrim line = "" then
        parseBlocksAux fuel rest
      else
        .p line :: parseBlocksAux fuel rest

/-- Split on `/\r?\n/`. -/
def splitLines (content : String) : List String :=
  (jsSplit '\n' content).map (fun l =>
    match l.data.getLast? with
    | some '\r' => ⟨l.data.dropLast⟩
    | _ => l)

def parseBlocks (content : String) : List Block :=
  parseBlocksAux (splitLines content).length (splitLines content)

end Markdown

/-! ## Predicates for the JSON round-trip analysis -/

/-- A string character needing no `JSON.stringify` escape: not the quote,
not the backslash, not a control character. -/
def plainChar (c : Char) : Bool :=
  c ≠ dquote && c ≠ bslash && decide (32 ≤ c.toNat)

mutual
/-- Values whose serialization the model renders exactly as JavaScript
does: no `undefined`/`NaN`, integer-valued numbers (canonically printed),
and strings/keys free of characters that would be escaped. -/
def wfPlain : JsVal → Bool
  | .undef => false
  | .null => true
  | .bool _ => true
  | .num q => q.den = 1
  | .nan => false
  | .str s => s.data.all plainChar
  | .arr xs => wfElems xs
  | .obj fs => wfFields fs

def wfElems : List JsVal → Bool
  | [] => true
  | x :: xs => wfPlain x && wfElems xs

def wfFields : List (String × JsVal) → Bool
  | [] => true
  | kv :: fs => kv.1.data.all plainChar && wfPlain kv.2 && wfFields fs
end

/-- An object or array (serialization starts with an opening bracket). -/
def topContainer : JsVal → Bool
  | .arr _ => true
  | .obj _ => true
  | _ => false

mutual
/-- Parser fuel sufficient for one serialized value (established by the
round-trip lemmas). -/
def fuelNeeded : JsVal → Nat
  | .arr [] => 1
  | .arr (x :: xs) => 1 + fuelElemsNeeded (x :: xs)
  | .obj [] => 1
  | .obj (f :: fs) => 1 + fuelFieldsNeeded (f :: fs)
  | _ => 1

def fuelElemsNeeded : List JsVal → Nat
  | [] => 0
  | x :: xs => 1 + fuelNeeded x + fuelElemsNeeded xs

def fuelFieldsNeeded : List (String × JsVal) → Nat
  | [] => 0
  | kv :: fs => 1 + fuelNeeded kv.2 + fuelFieldsNeeded fs
end

/-- Characters that can begin a JSON value (`parseVal` fails immediately on
anything else). -/
def valueStartCh (c : Char) : Bool :=
  c = obrace || c = '[' || c = dquote || c = 't' || c = 'f' || c = 'n' ||
    c = '-' || isDigitCh c

/-- A character that would extend a just-parsed number literal. -/
def numContinueCh (c : Char) : Bool :=
  isDigitCh c || c = '.' || c = 'e' || c = 'E'

/-- After a serialized number, the remainder must not begin with a
number-continuation character; other values are delimiter-terminated. -/
def numBoundary (v : JsVal) (rest : List Char) : Bool :=
  match v, rest with
  | .num _, c :: _ => !numContinueCh c
  | _, _ => true

/-! ## Shared list lemmas and JSON round-trip groundwork -/

theorem takeWhile_append_all {p : Char → Bool} :
    ∀ {xs : List Char} (ys : List Char), (∀ c ∈ xs, p c = true) →
      (xs ++ ys).takeWhile p = xs ++ ys.takeWhile p := by
  intro xs
  induction xs with
  | nil => intro ys _; rfl
  | cons c xs ih =>
    intro ys h
    rw [List.cons_append, List.takeWhile_cons_of_pos (h c (by simp)),
      ih ys (fun c hc => h c (by simp [hc])), List.cons_append]

theorem dropWhile_append_all {p : Char → Bool} :
    ∀ {xs : List Char} (ys : List Char), (∀ c ∈ xs, p c = true) →
      (xs ++ ys).dropWhile p = ys.dropWhile p := by
  intro xs
  induction xs with
  | nil => intro ys _; rfl
  | cons c xs ih =>
    intro ys h
    rw [List.cons_append, List.dropWhile_cons_of_pos (h c (by simp)),
      ih ys (fun c hc => h c (by simp [hc]))]

theorem takeWhile_nil_of_head {p : Char → Bool} {xs : List Char}
    (h : ∀ c, xs.head? = some c → p c = false) : xs.takeWhile p = [] := by
  cases xs with
  | nil => rfl
  | cons c t => simp [List.takeWhile_cons, h c rfl]

theorem dropWhile_id_of_head {p : Char → Bool} {xs : List Char}
    (h : ∀ c, xs.head? = some c → p c = false) : xs.dropWhile p = xs := by
  cases xs with
  | nil => rfl
  | cons c t => simp [List.dropWhile_cons, h c rfl]

theorem skipWs_cons_of {c : Char} {l : List Char} (h : isJsonWs c = false) :
    skipWs (c :: l) = c :: l := by
  simp [skipWs, List.dropWhile_cons, h]

/-- Digit characters of the canonical decimal printer. -/
theorem digit_char_props : ∀ m : Nat, m < 10 →
    isDigitCh (Char.ofNat ('0'.toNat + m)) = true ∧
      digitVal (Char.ofNat ('0'.toNat + m)) = m ∧
      (Char.ofNat ('0'.toNat + m) = '0' ↔ m = 0) := by
  intro m h
  interval_cases m <;> refine ⟨by decide, by decide, by decide⟩

theorem natDigits_ne_nil : ∀ n : Nat, natDigits n ≠ [] := by
  intro n
  induction n using natDigits.induct with
  | case1 n h => rw [natDigits, dif_pos h]; simp
  | case2 n h _ ih => rw [natDigits, dif_neg h]; simp

theorem natDigits_all_digits : ∀ (n : Nat) (c : Char), c ∈ natDigits n →
    isDigitCh c = true := by
  intro n
  induction n using natDigits.induct with
  | case1 n h =>
    intro c hc
    rw [natDigits, dif_pos h] at hc
    simp at hc
    rw [hc]
    exact (digit_char_props n h).1
  | case2 n h _ ih =>
    intro c hc
    rw [natDigits, dif_neg h] at hc
    simp at hc
    rcases hc with hc | hc
    · exact ih c hc
    · rw [hc]
      exact (digit_char_props (n % 10) (Nat.mod_lt _ (by omega))).1

theorem digitsToNat_append_one (ds : List Char) (c : Char) :
    digitsToNat (ds ++ [c]) = 10 * digitsToNat ds + digitVal c := by
  simp [digitsToNat, List.foldl_append, Nat.mul_comm]

theorem digitsToNat_natDigits : ∀ n : Nat, digitsToNat (natDigits n) = n := by
  intro n
  induction n using natDigits.induct with
  | case1 n h =>
    rw [natDigits, dif_pos h]
    simp [digitsToNat]
    exact (digit_char_props n h).2.1
  | case2 n h _ ih =>
    rw [natDigits, dif_neg h]
    rw [digitsToNat_append_one, ih,
      (digit_char_props (n % 10) (Nat.mod_lt _ (by omega))).2.1]
    omega

theorem natDigits_head_ne_zero : ∀ n : Nat, n ≠ 0 →
    ∀ c, (natDigits n).head? = some c → c ≠ '0' := by
  intro n
  induction n using natDigits.induct with
  | case1 n h =>
    intro hn c hc
    rw [natDigits, dif_pos h] at hc
    simp at hc
    rw [← hc]
    intro hcontra
    exact hn (((digit_char_props n h).2.2).mp hcontra)
  | case2 n h _ ih =>
    intro _ c hc
    rw [natDigits, dif_neg h] at hc
    rw [List.head?_append_of_ne_nil _ (natDigits_ne_nil (n / 10))] at hc
    exact ih (by omega) c hc

theorem find?_first {α} (p : α → Bool) (pre : List α) (x : α) (post : List α)
    (hx : p x = true) (hpre : ∀ y ∈ pre, p y = false) :
    (pre ++ x :: post).find? p = some x := by
  induction pre with
  | nil => exact List.find?_cons_of_pos _ hx
  | cons a as ih =>
    rw [List.cons_append, List.find?_cons_of_neg _ (by simp [hpre a (by simp)])]
    exact ih (fun y hy => hpre y (by simp [hy]))

/-- A digit character is none of the structural characters the parser and
scanner dispatch on. -/
theorem isDigitCh_props {c : Char} (h : isDigitCh c = true) :
    isJsonWs c = false ∧ c ≠ '-' ∧ c ≠ '.' ∧ c ≠ obrace ∧ c ≠ cbrace ∧
      c ≠ '[' ∧ c ≠ ']' ∧ c ≠ dquote ∧ c ≠ squote ∧ c ≠ bslash ∧
      c ≠ 't' ∧ c ≠ 'f' ∧ c ≠ 'n' ∧ c ≠ 'e' ∧ c ≠ 'E' := by
  have hws : isJsonWs c = false := by
    by_contra hc
    rw [Bool.not_eq_false] at hc
    simp only [isJsonWs, Bool.or_eq_true, decide_eq_true_eq] at hc
    rcases hc with ((h1 | h1) | h1) | h1 <;> subst h1 <;> exact absurd h (by decide)
  refine ⟨hws, ?_, ?_, ?_, ?_, ?_, ?_, ?_, ?_, ?_, ?_, ?_, ?_, ?_, ?_⟩ <;>
    (intro heq; rw [heq] at h; exact absurd h (by decide))

/-- The JSON integer grammar consumes exactly a canonical digit run. -/
theorem parseIntDigits_exact (ds rest : List Char) (hne : ds ≠ [])
    (hdig : ∀ c ∈ ds, isDigitCh c = true)
    (hcanon : ds = ['0'] ∨ ∀ c, ds.head? = some c → c ≠ '0')
    (hrest : ∀ c, rest.head? = some c → isDigitCh c = false) :
    parseIntDigits (ds ++ rest) = some (ds, rest) := by
  cases ds with
  | nil => exact absurd rfl hne
  | cons d dt =>
    by_cases hd0 : d = '0'
    · have hdt : dt = [] := by
        rcases hcanon with hc | hc
        · simpa using congrArg List.tail hc
        · exact absurd hd0 (hc d rfl)
      subst hdt
      subst hd0
      simp [parseIntDigits]
    · simp only [List.cons_append, parseIntDigits, if_neg hd0,
        hdig d (by simp), if_pos]
      rw [takeWhile_append_all rest (fun c hc => hdig c (by simp [hc])),
        dropWhile_append_all rest (fun c hc => hdig c (by simp [hc])),
        takeWhile_nil_of_head hrest, dropWhile_id_of_head hrest,
        List.append_nil]

/-- The unsigned number grammar consumes exactly a canonical digit run and
evaluates it back to the printed natural number. -/
theorem parseNumberBody_natDigits (n : Nat) (rest : List Char)
    (hrest : ∀ c, rest.head? = some c → numContinueCh c = false) :
    parseNumberBody (natDigits n ++ rest) = some ((n : Rat), rest) := by
  have hrestD : ∀ c, rest.head? = some c → isDigitCh c = false := by
    intro c hc
    have := hrest c hc
    simp only [numContinueCh, Bool.or_eq_false_iff] at this
    exact this.1.1.1
  have hfrac : ∀ c, rest.head? = some c → c ≠ '.' := by
    intro c hc
    have := hrest c hc
    simp only [numContinueCh, Bool.or_eq_false_iff, decide_eq_false_iff_not] at this
    exact this.1.1.2
  have hexp : ∀ c, rest.head? = some c → c ≠ 'e' ∧ c ≠ 'E' := by
    intro c hc
    have := hrest c hc
    simp only [numContinueCh, Bool.or_eq_false_iff, decide_eq_false_iff_not] at this
    exact ⟨this.1.2, this.2⟩
  have hids := parseIntDigits_exact (natDigits n) rest (natDigits_ne_nil n)
    (natDigits_all_digits n)
    (by
      by_cases hn : n = 0
      · subst hn; left; rw [natDigits, dif_pos (by omega)]; rfl
      · right; exact natDigits_head_ne_zero n hn)
    hrestD
  unfold parseNumberBody
  rw [hids]
  dsimp only
  have hfracRes : parseFracPart rest = some ([], rest) := by
    cases rest with
    | nil => rfl
    | cons c₂ r₂ =>
      have hdot := hfrac c₂ rfl
      unfold parseFracPart
      split
      · next r heq =>
          exact absurd (by injection heq) hdot
      · rfl
  rw [hfracRes]
  dsimp only
  have hexpRes : parseExpPart rest = some (0, rest) := by
    cases rest with
    | nil => rfl
    | cons c₂ r₂ =>
      have h2 := hexp c₂ rfl
      unfold parseExpPart
      dsimp only
      rw [if_neg (by simp [h2.1, h2.2])]
  rw [hexpRes]
  dsimp only
  rw [if_pos (le_refl (0 : Int))]
  rw [show digitsToNat ([] : List Char) = 0 from rfl, digitsToNat_natDigits]
  norm_num [Rat.mkRat_one]

/-- The head of a canonical digit run is a digit. -/
theorem natDigits_head_digit (n : Nat) :
    ∃ c t, natDigits n = c :: t ∧ isDigitCh c = true := by
  cases hd : natDigits n with
  | nil => exact absurd hd (natDigits_ne_nil n)
  | cons c t => exact ⟨c, t, rfl, natDigits_all_digits n c (by rw [hd]; simp)⟩

/-- The number grammar consumes exactly a canonically printed integer and
evaluates it back to the same value. -/
theorem parseNumber_intChars (i : Int) (rest : List Char)
    (hrest : ∀ c, rest.head? = some c → numContinueCh c = false) :
    parseNumber (intChars i ++ rest) = some (.num (i : Rat), rest) := by
  rcases le_or_lt 0 i with hi | hi
  · have hic : intChars i = natDigits i.toNat := by
      unfold intChars
      rw [if_neg (by omega)]
    obtain ⟨c, t, hct, hcd⟩ := natDigits_head_digit i.toNat
    unfold parseNumber
    rw [hic, hct]
    simp only [List.cons_append]
    have hne : c ≠ '-' := (isDigitCh_props hcd).2.1
    simp only [show (match c :: (t ++ rest) with
        | '-' :: r => (true, r)
        | x => (false, c :: (t ++ rest))) = (false, c :: (t ++ rest)) by
      split
      · next r heq =>
          exact absurd (by injection heq) hne
      · rfl]
    rw [show c :: (t ++ rest) = (c :: t) ++ rest from rfl, ← hct,
      parseNumberBody_natDigits i.toNat rest hrest]
    simp only [if_neg (by simp : ¬ (false = true))]
    have hq : ((i.toNat : Nat) : Rat) = (i : Rat) := by
      exact_mod_cast Int.toNat_of_nonneg hi
    rw [hq]
  · have hic : intChars i = '-' :: natDigits (-i).toNat := by
      unfold intChars
      rw [if_pos hi]
    unfold parseNumber
    rw [hic]
    simp only [List.cons_append]
    rw [parseNumberBody_natDigits (-i).toNat rest hrest]
    simp only [if_pos rfl]
    have hq : (((-i).toNat : Nat) : Rat) = -(i : Rat) := by
      have h1 : ((-i).toNat : Int) = -i := Int.toNat_of_nonneg (by omega)
      exact_mod_cast h1
    rw [hq, neg_neg]
    simp

theorem escChar_plain {c : Char} (h : plainChar c = true) : escChar c = [c] := by
  simp only [plainChar, Bool.and_eq_true, decide_eq_true_eq] at h
  obtain ⟨⟨h1, h2⟩, h3⟩ := h
  have hn : ∀ d : Char, d.toNat < 32 → c ≠ d := by
    intro d hd heq
    subst heq
    omega
  unfold escChar
  rw [if_neg h1, if_neg h2, if_neg (hn '\n' (by decide)),
    if_neg (hn '\r' (by decide)), if_neg (hn '\t' (by decide)),
    if_neg (hn '\x08' (by decide)), if_neg (hn '\x0c' (by decide)),
    if_neg (by omega)]

theorem flatMap_escChar_plain : ∀ (l : List Char), (∀ c ∈ l, plainChar c = true) →
    l.flatMap escChar = l := by
  intro l
  induction l with
  | nil => intro _; rfl
  | cons c l ih =>
    intro h
    rw [List.flatMap_cons, escChar_plain (h c (by simp)),
      ih (fun d hd => h d (by simp [hd]))]
    rfl

theorem strLit_plain (s : String) (h : s.data.all plainChar = true) :
    strLitChars s = dquote :: s.data ++ [dquote] := by
  unfold strLitChars
  rw [flatMap_escChar_plain s.data (fun c hc => (List.all_eq_true.mp h) c hc)]

theorem parseStringBody_plain : ∀ (s rest : List Char),
    (∀ c ∈ s, plainChar c = true) →
    parseStringBody (s ++ dquote :: rest) = some (⟨s⟩, rest) := by
  intro s
  induction s with
  | nil =>
    intro rest _
    rw [List.nil_append, parseStringBody.eq_def]
    dsimp only
    rw [if_pos rfl]
  | cons c s ih =>
    intro rest h
    have hc := h c (by simp)
    simp only [plainChar, Bool.and_eq_true, decide_eq_true_eq] at hc
    obtain ⟨⟨h1, h2⟩, h3⟩ := hc
    rw [List.cons_append, parseStringBody.eq_def]
    dsimp only
    rw [if_neg h1, if_neg h2, if_neg (by omega),
      ih rest (fun d hd => h d (by simp [hd]))]
    rfl

/-- The empty string body: an immediate closing quote. -/
theorem parseStringBody_dquote (l : List Char) :
    parseStringBody (dquote :: l) = some ("", l) := by
  rw [parseStringBody.eq_def]
  dsimp only
  rw [if_pos (show dquote = dquote from rfl)]

/-- The head character of a canonical integer print: a minus sign or a
digit. -/
theorem intChars_head (i : Int) :
    ∃ c t, intChars i = c :: t ∧ (c = '-' ∨ isDigitCh c = true) := by
  unfold intChars
  by_cases hi : i < 0
  · rw [if_pos hi]
    exact ⟨'-', _, rfl, Or.inl rfl⟩
  · rw [if_neg hi]
    obtain ⟨c, t, hct, hcd⟩ := natDigits_head_digit i.toNat
    exact ⟨c, t, hct, Or.inr hcd⟩

/-- Structural facts about the first serialized character of a value. -/
theorem stringify_head (v : JsVal) (hwf : wfPlain v = true) :
    ∃ c t, stringifyChars v = c :: t ∧ isJsonWs c = false ∧
      c ≠ ']' ∧ c ≠ cbrace ∧ c ≠ ',' := by
  cases v with
  | undef => exact absurd hwf (by simp [wfPlain])
  | nan => exact absurd hwf (by simp [wfPlain])
  | null => exact ⟨'n', _, rfl, by decide, by decide, by decide, by decide⟩
  | bool b =>
    cases b
    · exact ⟨'f', _, rfl, by decide, by decide, by decide, by decide⟩
    · exact ⟨'t', _, rfl, by decide, by decide, by decide, by decide⟩
  | num q =>
    have hden : q.den = 1 := by simpa [wfPlain] using hwf
    obtain ⟨c, t, hct, hcd⟩ := intChars_head q.num
    refine ⟨c, t, ?_, ?_, ?_, ?_, ?_⟩
    · simp [stringifyChars, hden, hct]
    all_goals
      rcases hcd with hcd | hcd
      case inl => subst hcd; decide
      case inr =>
        first
        | exact (isDigitCh_props hcd).1
        | exact (isDigitCh_props hcd).2.2.2.2.2.1
        | exact (isDigitCh_props hcd).2.2.2.1.symm ▸ (isDigitCh_props hcd).2.2.2.2.1
        | (intro heq; rw [heq] at hcd; exact absurd hcd (by decide))
  | str s =>
    exact ⟨dquote, _, rfl, by decide, by decide, by decide, by decide⟩
  | arr xs =>
    exact ⟨'[', _, rfl, by decide, by decide, by decide, by decide⟩
  | obj fs =>
    exact ⟨obrace, _, rfl, by decide, by decide, by decide, by decide⟩

/-- The serialized tail of a non-empty element list after its first
element. -/
theorem stringifyElems_cons (x : JsVal) (xs : List JsVal) :
    stringifyElems (x :: xs) = stringifyChars x ++ elemsTail xs := by
  cases xs <;> simp [stringifyElems, elemsTail]

theorem stringifyFields_cons (kv : String × JsVal) (fs : List (String × JsVal)) :
    stringifyFields (kv :: fs) =
      strLitChars kv.1 ++ ':' :: stringifyChars kv.2 ++ fieldsTail fs := by
  cases fs <;> simp [stringifyFields, fieldsTail]

theorem fuelNeeded_pos : ∀ v : JsVal, 1 ≤ fuelNeeded v := by
  intro v
  cases v with
  | arr xs => cases xs <;> simp [fuelNeeded]
  | obj fs => cases fs <;> simp [fuelNeeded]
  | undef => simp [fuelNeeded]
  | null => simp [fuelNeeded]
  | bool b => simp [fuelNeeded]
  | num q => simp [fuelNeeded]
  | nan => simp [fuelNeeded]
  | str s => simp [fuelNeeded]

mutual
/-- The parser consumes exactly the serialization of a well-formed value
and returns the value, for any sufficient fuel and any remainder that
cannot extend a number literal. -/
theorem parseVal_stringify (v : JsVal) (rest : List Char) (fuel : Nat)
    (hwf : wfPlain v = true) (hfuel : fuelNeeded v ≤ fuel)
    (hnb : numBoundary v rest = true) :
    parseVal fuel (stringifyChars v ++ rest) = some (v, rest) := by
  obtain ⟨f, rfl⟩ : ∃ f, fuel = f + 1 := by
    cases fuel with
    | zero => exact absurd hfuel (by have := fuelNeeded_pos v; omega)
    | succ f => exact ⟨f, rfl⟩
  cases v with
  | undef => exact absurd hwf (by simp [wfPlain])
  | nan => exact absurd hwf (by simp [wfPlain])
  | null =>
    show parseVal (f + 1) ('n' :: 'u' :: 'l' :: 'l' :: rest) = _
    rw [parseVal.eq_def]
    dsimp only
    rw [skipWs_cons_of (show isJsonWs 'n' = false by decide)]
    dsimp only
    rw [if_neg (show ¬ ('n' : Char) = obrace by decide),
      if_neg (show ¬ ('n' : Char) = '[' by decide),
      if_neg (show ¬ ('n' : Char) = dquote by decide),
      if_neg (show ¬ ('n' : Char) = 't' by decide),
      if_neg (show ¬ ('n' : Char) = 'f' by decide),
      if_pos (show ('n' : Char) = 'n' from rfl)]
    rfl
  | bool b =>
    cases b
    · show parseVal (f + 1) ('f' :: 'a' :: 'l' :: 's' :: 'e' :: rest) = _
      rw [parseVal.eq_def]
      dsimp only
      rw [skipWs_cons_of (show isJsonWs 'f' = false by decide)]
      dsimp only
      rw [if_neg (show ¬ ('f' : Char) = obrace by decide),
        if_neg (show ¬ ('f' : Char) = '[' by decide),
        if_neg (show ¬ ('f' : Char) = dquote by decide),
        if_neg (show ¬ ('f' : Char) = 't' by decide),
        if_pos (show ('f' : Char) = 'f' from rfl)]
      rfl
    · show parseVal (f + 1) ('t' :: 'r' :: 'u' :: 'e' :: rest) = _
      rw [parseVal.eq_def]
      dsimp only
      rw [skipWs_cons_of (show isJsonWs 't' = false by decide)]
      dsimp only
      rw [if_neg (show ¬ ('t' : Char) = obrace by decide),
        if_neg (show ¬ ('t' : Char) = '[' by decide),
        if_neg (show ¬ ('t' : Char) = dquote by decide),
        if_pos (show ('t' : Char) = 't' from rfl)]
      rfl
  | num q =>
    have hden : q.den = 1 := by simpa [wfPlain] using hwf
    have hic : stringifyChars (.num q) = intChars q.num := by
      simp [stringifyChars, hden]
    have hrest' : ∀ d, rest.head? = some d → numContinueCh d = false := by
      intro d hd
      cases rest with
      | nil => simp at hd
      | cons c₀ r₀ =>
        simp at hd
        subst hd
        simpa [numBoundary] using hnb
    obtain ⟨c, t, hct, hcd⟩ := intChars_head q.num
    have hnotlit : ∀ d : Char, (c = '-' ∨ isDigitCh c = true) → d = obrace ∨
        d = '[' ∨ d = dquote ∨ d = 't' ∨ d = 'f' ∨ d = 'n' → c ≠ d := by
      intro d hcd' hd heq
      subst heq
      rcases hcd' with h | h
      · rcases hd with h1 | h1 | h1 | h1 | h1 | h1 <;> rw [h1] at h <;>
          exact absurd h (by decide)
      · rcases hd with h1 | h1 | h1 | h1 | h1 | h1 <;> rw [h1] at h <;>
          exact absurd h (by decide)
    have hws : isJsonWs c = false := by
      rcases hcd with h | h
      · rw [h]; decide
      · exact (isDigitCh_props h).1
    rw [hic, hct, List.cons_append, parseVal.eq_def]
    dsimp only
    rw [skipWs_cons_of hws]
    dsimp only
    rw [if_neg (hnotlit obrace hcd (by simp)),
      if_neg (hnotlit '[' hcd (by simp)),
      if_neg (hnotlit dquote hcd (by simp)),
      if_neg (hnotlit 't' hcd (by simp)),
      if_neg (hnotlit 'f' hcd (by simp)),
      if_neg (hnotlit 'n' hcd (by simp)),
      if_pos (show (decide (c = '-') || isDigitCh c) = true by
        rcases hcd with h | h <;> simp [h])]
    rw [show c :: (t ++ rest) = (c :: t) ++ rest from rfl, ← hct,
      parseNumber_intChars q.num rest hrest']
    have hq : ((q.num : Int) : Rat) = q := by
      conv_rhs => rw [← Rat.num_div_den q]
      rw [hden]
      norm_num
    rw [hq]
  | str s =>
    have hall : s.data.all plainChar = true := by simpa [wfPlain] using hwf
    rw [show stringifyChars (.str s) = strLitChars s from rfl, strLit_plain s hall,
      List.cons_append, List.cons_append, parseVal.eq_def]
    dsimp only
    rw [skipWs_cons_of (show isJsonWs dquote = false by decide)]
    dsimp only
    rw [if_neg (show ¬ dquote = obrace by decide),
      if_neg (show ¬ dquote = '[' by decide),
      if_pos (show dquote = dquote from rfl),
      show (s.data ++ [dquote]) ++ rest = s.data ++ dquote :: rest by simp,
      parseStringBody_plain s.data rest (List.all_eq_true.mp hall)]
    rfl
  | arr xs =>
    cases xs with
    | nil =>
      show parseVal (f + 1) ('[' :: ']' :: rest) = _
      rw [parseVal.eq_def]
      dsimp only
      rw [skipWs_cons_of (show isJsonWs '[' = false by decide)]
      dsimp only
      rw [if_neg (show ¬ ('[' : Char) = obrace by decide),
        if_pos (show ('[' : Char) = '[' from rfl),
        skipWs_cons_of (show isJsonWs ']' = false by decide)]
      dsimp only
      rw [if_pos (show (']' : Char) = ']' from rfl)]
    | cons x xs =>
      have hwf' : wfPlain x = true ∧ wfElems xs = true := by
        simpa [wfPlain, wfElems] using hwf
      have hfe : fuelElemsNeeded (x :: xs) ≤ f := by
        have : fuelNeeded (.arr (x :: xs)) = 1 + fuelElemsNeeded (x :: xs) := by
          simp [fuelNeeded]
        omega
      have hbody : stringifyChars (.arr (x :: xs)) ++ rest =
          '[' :: (stringifyElems (x :: xs) ++ ']' :: rest) := by
        simp [stringifyChars]
      obtain ⟨c, t, hct, hws, hne1, _, _⟩ := stringify_head x hwf'.1
      have hsplit : stringifyElems (x :: xs) ++ ']' :: rest =
          c :: (t ++ elemsTail xs ++ ']' :: rest) := by
        rw [stringifyElems_cons, hct]
        simp
      rw [hbody, parseVal.eq_def]
      dsimp only
      rw [skipWs_cons_of (show isJsonWs '[' = false by decide)]
      dsimp only
      rw [if_neg (show ¬ ('[' : Char) = obrace by decide),
        if_pos (show ('[' : Char) = '[' from rfl)]
      rw [show skipWs (stringifyElems (x :: xs) ++ ']' :: rest) =
          c :: (t ++ elemsTail xs ++ ']' :: rest) from by
        rw [hsplit, skipWs_cons_of hws]]
      dsimp only
      rw [if_neg hne1,
        parseElems_stringify (x :: xs) rest f (by simp)
          (by simp [wfElems, hwf'.1, hwf'.2]) hfe]
      rfl
  | obj fs =>
    cases fs with
    | nil =>
      show parseVal (f + 1) (obrace :: cbrace :: rest) = _
      rw [parseVal.eq_def]
      dsimp only
      rw [skipWs_cons_of (show isJsonWs obrace = false by decide)]
      dsimp only
      rw [if_pos (show obrace = obrace from rfl),
        skipWs_cons_of (show isJsonWs cbrace = false by decide)]
      dsimp only
      rw [if_pos (show cbrace = cbrace from rfl)]
    | cons kv fs =>
      have hwf₀ : wfFields (kv :: fs) = true := by simpa [wfPlain] using hwf
      have hwf' : kv.1.data.all plainChar = true ∧ wfPlain kv.2 = true ∧
          wfFields fs = true := by
        simp only [wfFields, Bool.and_eq_true] at hwf₀
        exact ⟨hwf₀.1.1, hwf₀.1.2, hwf₀.2⟩
      have hff : fuelFieldsNeeded (kv :: fs) ≤ f := by
        have : fuelNeeded (.obj (kv :: fs)) = 1 + fuelFieldsNeeded (kv :: fs) := by
          simp [fuelNeeded]
        omega
      have hbody : stringifyChars (.obj (kv :: fs)) ++ rest =
          obrace :: (stringifyFields (kv :: fs) ++ cbrace :: rest) := by
        simp [stringifyChars]
      have hsplit : stringifyFields (kv :: fs) ++ cbrace :: rest =
          dquote :: (kv.1.data.flatMap escChar ++ [dquote] ++
            (':' :: stringifyChars kv.2 ++ (fieldsTail fs ++ cbrace :: rest))) := by
        rw [stringifyFields_cons]
        simp [strLitChars]
      rw [hbody, parseVal.eq_def]
      dsimp only
      rw [skipWs_cons_of (show isJsonWs obrace = false by decide)]
      dsimp only
      rw [if_pos (show obrace = obrace from rfl)]
      rw [show skipWs (stringifyFields (kv :: fs) ++ cbrace :: rest) =
          dquote :: (kv.1.data.flatMap escChar ++ [dquote] ++
            (':' :: stringifyChars kv.2 ++ (fieldsTail fs ++ cbrace :: rest))) from by
        rw [hsplit, skipWs_cons_of (show isJsonWs dquote = false by decide)]]
      dsimp only
      rw [if_neg (show ¬ dquote = cbrace by decide),
        parseFields_stringify (kv :: fs) rest f (by simp)
          (by simp [wfFields, hwf'.1, hwf'.2.1, hwf'.2.2]) hff]
      rfl

/-- The element loop consumes exactly a serialized non-empty element list
up to and including the closing bracket. -/
theorem parseElems_stringify (xs : List JsVal) (rest : List Char) (fuel : Nat)
    (hne : xs ≠ []) (hwf : wfElems xs = true)
    (hfuel : fuelElemsNeeded xs ≤ fuel) :
    parseElems fuel (stringifyElems xs ++ ']' :: rest) = some (xs, rest) := by
  cases xs with
  | nil => exact absurd rfl hne
  | cons x xs =>
    have hwf' : wfPlain x = true ∧ wfElems xs = true := by
      simpa [wfElems] using hwf
    have hfe : fuelElemsNeeded (x :: xs) = 1 + fuelNeeded x + fuelElemsNeeded xs := by
      simp [fuelElemsNeeded]
    obtain ⟨f, rfl⟩ : ∃ f, fuel = f + 1 := by
      cases fuel with
      | zero => exact absurd hfuel (by omega)
      | succ f => exact ⟨f, rfl⟩
    have harr : stringifyElems (x :: xs) ++ ']' :: rest =
        stringifyChars x ++ (elemsTail xs ++ ']' :: rest) := by
      rw [stringifyElems_cons]
      simp
    have hnb : numBoundary x (elemsTail xs ++ ']' :: rest) = true := by
      cases x <;> cases xs <;> first | rfl | decide
    rw [parseElems.eq_def]
    dsimp only
    rw [harr, parseVal_stringify x _ f hwf'.1 (by omega) hnb]
    dsimp only
    cases xs with
    | nil =>
      simp only [elemsTail]
      rw [show skipWs ((([] : List Char)) ++ ']' :: rest) = ']' :: rest by
        rw [List.nil_append, skipWs_cons_of (show isJsonWs ']' = false by decide)]]
      dsimp only
      rw [if_neg (show ¬ (']' : Char) = ',' by decide),
        if_pos (show (']' : Char) = ']' from rfl)]
    | cons y ys =>
      simp only [elemsTail]
      rw [show skipWs ((',' :: stringifyElems (y :: ys)) ++ ']' :: rest) =
          ',' :: (stringifyElems (y :: ys) ++ ']' :: rest) by
        rw [List.cons_append, skipWs_cons_of (show isJsonWs ',' = false by decide)]]
      dsimp only
      rw [if_pos (show (',' : Char) = ',' from rfl),
        parseElems_stringify (y :: ys) rest f (by simp) hwf'.2 (by
          rw [hfe] at hfuel
          have : fuelElemsNeeded (y :: ys) ≤ fuelElemsNeeded (y :: ys) := le_refl _
          omega)]
      rfl

/-- The member loop consumes exactly a serialized non-empty field list up
to and including the closing brace. -/
theorem parseFields_stringify (fs : List (String × JsVal)) (rest : List Char)
    (fuel : Nat) (hne : fs ≠ []) (hwf : wfFields fs = true)
    (hfuel : fuelFieldsNeeded fs ≤ fuel) :
    parseFields fuel (stringifyFields fs ++ cbrace :: rest) = some (fs, rest) := by
  cases fs with
  | nil => exact absurd rfl hne
  | cons kv fs =>
    have hwf' : kv.1.data.all plainChar = true ∧ wfPlain kv.2 = true ∧
        wfFields fs = true := by
      have h := hwf
      simp only [wfFields, Bool.and_eq_true] at h
      exact ⟨h.1.1, h.1.2, h.2⟩
    have hff : fuelFieldsNeeded (kv :: fs) =
        1 + fuelNeeded kv.2 + fuelFieldsNeeded fs := by
      simp [fuelFieldsNeeded]
    obtain ⟨f, rfl⟩ : ∃ f, fuel = f + 1 := by
      cases fuel with
      | zero => exact absurd hfuel (by omega)
      | succ f => exact ⟨f, rfl⟩
    have hobj : stringifyFields (kv :: fs) ++ cbrace :: rest =
        dquote :: (kv.1.data ++ dquote ::
          (':' :: (stringifyChars kv.2 ++ (fieldsTail fs ++ cbrace :: rest)))) := by
      rw [stringifyFields_cons]
      rw [show strLitChars kv.1 = dquote :: kv.1.data ++ [dquote] from
        strLit_plain kv.1 hwf'.1]
      simp
    rw [parseFields.eq_def]
    dsimp only
    rw [hobj, skipWs_cons_of (show isJsonWs dquote = false by decide)]
    dsimp only
    rw [if_pos (show dquote = dquote from rfl),
      parseStringBody_plain kv.1.data _ (List.all_eq_true.mp hwf'.1)]
    dsimp only
    rw [skipWs_cons_of (show isJsonWs ':' = false by decide)]
    have hnb : numBoundary kv.2 (fieldsTail fs ++ cbrace :: rest) = true := by
      cases hv : kv.2 <;> cases fs <;> first | rfl | decide
    change (match parseVal f (stringifyChars kv.2 ++ (fieldsTail fs ++ cbrace :: rest)) with
      | some (v, r₃) =>
        match skipWs r₃ with
        | c₂ :: r₄ =>
          if c₂ = ',' then
            Option.map (fun fr => ((String.mk kv.1.data, v) :: fr.1, fr.2))
              (parseFields f r₄)
          else if c₂ = cbrace then some ([(String.mk kv.1.data, v)], r₄)
          else none
        | [] => none
      | none => none) = some (kv :: fs, rest)
    rw [parseVal_stringify kv.2 _ f hwf'.2.1 (by omega) hnb]
    dsimp only
    cases fs with
    | nil =>
      simp only [fieldsTail]
      rw [show skipWs ((([] : List Char)) ++ cbrace :: rest) = cbrace :: rest by
        rw [List.nil_append, skipWs_cons_of (show isJsonWs cbrace = false by decide)]]
      dsimp only
      rw [if_neg (show ¬ cbrace = ',' by decide),
        if_pos (show cbrace = cbrace from rfl)]
    | cons kv₂ fs₂ =>
      simp only [fieldsTail]
      rw [show skipWs ((',' :: stringifyFields (kv₂ :: fs₂)) ++ cbrace :: rest) =
          ',' :: (stringifyFields (kv₂ :: fs₂) ++ cbrace :: rest) by
        rw [List.cons_append, skipWs_cons_of (show isJsonWs ',' = false by decide)]]
      dsimp only
      rw [if_pos (show (',' : Char) = ',' from rfl),
        parseFields_stringify (kv₂ :: fs₂) rest f (by simp) hwf'.2.2 (by
          rw [hff] at hfuel
          omega)]
      rfl
end


/-! ## Round-trip groundwork: fuel bounds and whole-string parsing -/

theorem numBoundary_nil (v : JsVal) : numBoundary v [] = true := by
  cases v <;> rfl

mutual
theorem fuelNeeded_le : ∀ v : JsVal, wfPlain v = true →
    fuelNeeded v ≤ 2 * (stringifyChars v).length
  | .undef, hwf => absurd hwf (by simp [wfPlain])
  | .nan, hwf => absurd hwf (by simp [wfPlain])
  | .null, _ => by simp [fuelNeeded, stringifyChars]
  | .bool b, _ => by cases b <;> simp [fuelNeeded, stringifyChars]
  | .num q, hwf => by
    have hden : q.den = 1 := by simpa [wfPlain] using hwf
    obtain ⟨c, t, hct, _⟩ := intChars_head q.num
    have hs : stringifyChars (.num q) = intChars q.num := by
      simp [stringifyChars, hden]
    have hf : fuelNeeded (.num q) = 1 := by simp [fuelNeeded]
    rw [hs, hf, hct, List.length_cons]
    omega
  | .str s, _ => by
    simp only [fuelNeeded, stringifyChars, strLitChars, List.length_cons,
      List.length_append]
    omega
  | .arr [], _ => by simp [fuelNeeded, stringifyChars, stringifyElems]
  | .arr (x :: xs), hwf => by
    have h := fuelElemsNeeded_le (x :: xs) (by simpa [wfPlain] using hwf)
    simp only [fuelNeeded, stringifyChars, List.length_cons, List.length_append,
      List.length_singleton]
    omega
  | .obj [], _ => by simp [fuelNeeded, stringifyChars, stringifyFields]
  | .obj (kv :: fs), hwf => by
    have h := fuelFieldsNeeded_le (kv :: fs) (by simpa [wfPlain] using hwf)
    simp only [fuelNeeded, stringifyChars, List.length_cons, List.length_append,
      List.length_singleton]
    omega

theorem fuelElemsNeeded_le : ∀ xs : List JsVal, wfElems xs = true →
    fuelElemsNeeded xs ≤ 2 * (stringifyElems xs).length + 1
  | [], _ => by simp [fuelElemsNeeded, stringifyElems]
  | x :: xs, hwf => by
    have hwf' : wfPlain x = true ∧ wfElems xs = true := by
      simpa [wfElems] using hwf
    have h1 := fuelNeeded_le x hwf'.1
    have h2 := fuelElemsNeeded_le xs hwf'.2
    rw [show fuelElemsNeeded (x :: xs) = 1 + fuelNeeded x + fuelElemsNeeded xs
      from by simp [fuelElemsNeeded]]
    rw [stringifyElems_cons, List.length_append]
    cases xs with
    | nil =>
      simp only [elemsTail, List.length_nil, fuelElemsNeeded] at h2 ⊢
      omega
    | cons y ys =>
      simp only [elemsTail, List.length_cons] at h2 ⊢
      omega

theorem fuelFieldsNeeded_le : ∀ fs : List (String × JsVal), wfFields fs = true →
    fuelFieldsNeeded fs ≤ 2 * (stringifyFields fs).length + 1
  | [], _ => by simp [fuelFieldsNeeded, stringifyFields]
  | kv :: fs, hwf => by
    have hwf' : kv.1.data.all plainChar = true ∧ wfPlain kv.2 = true ∧
        wfFields fs = true := by
      have h := hwf
      simp only [wfFields, Bool.and_eq_true] at h
      exact ⟨h.1.1, h.1.2, h.2⟩
    have h1 := fuelNeeded_le kv.2 hwf'.2.1
    have h2 := fuelFieldsNeeded_le fs hwf'.2.2
    rw [show fuelFieldsNeeded (kv :: fs) = 1 + fuelNeeded kv.2 + fuelFieldsNeeded fs
      from by simp [fuelFieldsNeeded]]
    rw [stringifyFields_cons]
    cases fs with
    | nil =>
      simp only [fieldsTail, fuelFieldsNeeded, List.length_append, List.length_cons,
        List.length_nil] at h2 ⊢
      omega
    | cons kv₂ fs₂ =>
      simp only [fieldsTail, List.length_append, List.length_cons] at h2 ⊢
      omega
end

theorem parseJsonChars_stringify (v : JsVal) (hwf : wfPlain v = true) :
    parseJsonChars (stringifyChars v) = some v := by
  have hf : fuelNeeded v ≤ 2 * (stringifyChars v).length + 2 :=
    le_trans (fuelNeeded_le v hwf) (by omega)
  have h := parseVal_stringify v [] (2 * (stringifyChars v).length + 2) hwf hf
    (numBoundary_nil v)
  rw [List.append_nil] at h
  unfold parseJsonChars
  rw [h]
  rfl

theorem parseVal_bad_start (fuel : Nat) (cs : List Char) (c₀ : Char) (t : List Char)
    (hs : skipWs cs = c₀ :: t) (hbad : valueStartCh c₀ = false) :
    parseVal fuel cs = none := by
  simp only [valueStartCh, Bool.or_eq_false_iff, decide_eq_false_iff_not] at hbad
  obtain ⟨⟨⟨⟨⟨⟨⟨h1, h2⟩, h3⟩, h4⟩, h5⟩, h6⟩, h7⟩, h8⟩ := hbad
  cases fuel with
  | zero => rfl
  | succ f =>
    rw [parseVal.eq_def]
    dsimp only
    rw [hs]
    dsimp only
    rw [if_neg h1, if_neg h2, if_neg h3, if_neg h4, if_neg h5, if_neg h6,
      if_neg (show ¬ (decide (c₀ = '-') || isDigitCh c₀) = true from by
        simp [h7, h8])]

theorem parseJsonChars_bad_start (cs : List Char) (c₀ : Char) (t : List Char)
    (hs : skipWs cs = c₀ :: t) (hbad : valueStartCh c₀ = false) :
    parseJsonChars cs = none := by
  unfold parseJsonChars
  rw [parseVal_bad_start _ cs c₀ t hs hbad]

/-! ## The bracket scanner on serialized values -/

theorem optMap_add (o : Option Nat) (a b : Nat) :
    (o.map (· + a)).map (· + b) = o.map (· + (a + b)) := by
  cases o <;> simp [Nat.add_assoc]

theorem scanLoop_prev (op cl : Char) (d : Int) (l : List Char) (p p' : Char) :
    scanLoop op cl d none p l = scanLoop op cl d none p' l := by
  cases l <;> rfl

theorem scanLoop_step_other (op cl : Char) (d : Int) (c : Char) (l : List Char)
    (p : Char) (h1 : c ≠ dquote) (h2 : c ≠ squote) (h3 : c ≠ op) (h4 : c ≠ cl) :
    scanLoop op cl d none p (c :: l) = (scanLoop op cl d none ' ' l).map (· + 1) := by
  simp only [scanLoop]
  rw [if_neg (by simp [h1, h2]), if_neg h3, if_neg h4, scanLoop_prev op cl d l c ' ']

theorem scanLoop_step_dquote (op cl : Char) (d : Int) (l : List Char) (p : Char) :
    scanLoop op cl d none p (dquote :: l) =
      (scanLoop op cl d (some dquote) dquote l).map (· + 1) := by
  simp only [scanLoop]
  rw [if_pos (by simp)]

theorem scanLoop_step_opening (op cl : Char) (d : Int) (l : List Char) (p : Char)
    (h1 : op ≠ dquote) (h2 : op ≠ squote) :
    scanLoop op cl d none p (op :: l) =
      (scanLoop op cl (d + 1) none ' ' l).map (· + 1) := by
  simp only [scanLoop]
  rw [if_neg (by simp [h1, h2]), if_pos trivial, scanLoop_prev op cl (d + 1) l op ' ']

theorem scanLoop_step_closing (op cl : Char) (d : Int) (l : List Char) (p : Char)
    (h1 : cl ≠ dquote) (h2 : cl ≠ squote) (h3 : cl ≠ op) (hd : ¬ d - 1 = 0) :
    scanLoop op cl d none p (cl :: l) =
      (scanLoop op cl (d - 1) none ' ' l).map (· + 1) := by
  simp only [scanLoop]
  rw [if_neg (by simp [h1, h2]), if_neg h3, if_pos trivial, if_neg hd,
    scanLoop_prev op cl (d - 1) l cl ' ']

theorem scanLoop_step_closing_done (op cl : Char) (d : Int) (l : List Char)
    (p : Char) (h1 : cl ≠ dquote) (h2 : cl ≠ squote) (h3 : cl ≠ op)
    (hd : d - 1 = 0) :
    scanLoop op cl d none p (cl :: l) = some 1 := by
  simp only [scanLoop]
  rw [if_neg (by simp [h1, h2]), if_neg h3, if_pos trivial, if_pos hd]

theorem scanLoop_inert (op cl : Char) (d : Int) :
    ∀ (seg : List Char),
      (∀ c ∈ seg, c ≠ dquote ∧ c ≠ squote ∧ c ≠ op ∧ c ≠ cl) →
      ∀ (p : Char) (rest : List Char),
        scanLoop op cl d none p (seg ++ rest) =
          (scanLoop op cl d none ' ' rest).map (· + seg.length) := by
  intro seg
  induction seg with
  | nil =>
    intro _ p rest
    rw [List.nil_append, scanLoop_prev op cl d rest p ' ']
    cases scanLoop op cl d none ' ' rest <;> simp
  | cons c seg ih =>
    intro h p rest
    obtain ⟨h1, h2, h3, h4⟩ := h c (by simp)
    rw [List.cons_append, scanLoop_step_other op cl d c (seg ++ rest) p h1 h2 h3 h4,
      ih (fun x hx => h x (by simp [hx])) ' ' rest, optMap_add]
    simp

theorem scanLoop_string (op cl : Char) (d : Int) :
    ∀ (content : List Char), (∀ c ∈ content, plainChar c = true) →
      ∀ (p : Char), p ≠ bslash → ∀ (rest : List Char),
        scanLoop op cl d (some dquote) p (content ++ dquote :: rest) =
          (scanLoop op cl d none ' ' rest).map (· + (content.length + 1)) := by
  intro content
  induction content with
  | nil =>
    intro _ p hp rest
    rw [List.nil_append]
    simp only [scanLoop]
    rw [if_pos (by simp [hp]), scanLoop_prev op cl d rest dquote ' ']
    simp
  | cons c content ih =>
    intro h p hp rest
    have hc := h c (by simp)
    simp only [plainChar, Bool.and_eq_true, decide_eq_true_eq] at hc
    obtain ⟨⟨hnd, hnb⟩, _⟩ := hc
    rw [List.cons_append]
    simp only [scanLoop]
    rw [if_neg (by simp [hnd]),
      ih (fun x hx => h x (by simp [hx])) c hnb rest, optMap_add]
    simp [Nat.add_assoc]

theorem scanLoop_strLit (op cl : Char) (d : Int) (s : String)
    (hs : s.data.all plainChar = true) (p : Char) (rest : List Char) :
    scanLoop op cl d none p (strLitChars s ++ rest) =
      (scanLoop op cl d none ' ' rest).map (· + (strLitChars s).length) := by
  rw [strLit_plain s hs]
  rw [show (dquote :: s.data ++ [dquote]) ++ rest =
      dquote :: (s.data ++ dquote :: rest) from by simp]
  rw [scanLoop_step_dquote op cl d (s.data ++ dquote :: rest) p,
    scanLoop_string op cl d s.data (List.all_eq_true.mp hs) dquote (by decide) rest,
    optMap_add]
  simp [Nat.add_assoc]


theorem intChars_mem (i : Int) : ∀ c ∈ intChars i, c = '-' ∨ isDigitCh c = true := by
  intro c hc
  unfold intChars at hc
  by_cases hi : i < 0
  · rw [if_pos hi] at hc
    rcases List.mem_cons.mp hc with h | h
    · exact Or.inl h
    · exact Or.inr (natDigits_all_digits _ c h)
  · rw [if_neg hi] at hc
    exact Or.inr (natDigits_all_digits _ c hc)

theorem intChars_inert (op cl : Char)
    (hop : op = obrace ∧ cl = cbrace ∨ op = '[' ∧ cl = ']') (i : Int) :
    ∀ c ∈ intChars i, c ≠ dquote ∧ c ≠ squote ∧ c ≠ op ∧ c ≠ cl := by
  intro c hc
  rcases intChars_mem i c hc with h | h
  · subst h
    rcases hop with ⟨rfl, rfl⟩ | ⟨rfl, rfl⟩ <;>
      exact ⟨by decide, by decide, by decide, by decide⟩
  · have hp := isDigitCh_props h
    rcases hop with ⟨rfl, rfl⟩ | ⟨rfl, rfl⟩
    · exact ⟨hp.2.2.2.2.2.2.2.1, hp.2.2.2.2.2.2.2.2.1, hp.2.2.2.1, hp.2.2.2.2.1⟩
    · exact ⟨hp.2.2.2.2.2.2.2.1, hp.2.2.2.2.2.2.2.2.1, hp.2.2.2.2.2.1,
        hp.2.2.2.2.2.2.1⟩

mutual
/-- Scanning the serialization of a well-formed value at bracket depth at
least one passes straight through it, for either bracket pair the scanner
may be tracking. -/
theorem scanPassVal : ∀ (v : JsVal), wfPlain v = true →
    ∀ (op cl : Char), op = obrace ∧ cl = cbrace ∨ op = '[' ∧ cl = ']' →
    ∀ (d : Int), 1 ≤ d → ∀ (p : Char) (rest : List Char),
      scanLoop op cl d none p (stringifyChars v ++ rest) =
        (scanLoop op cl d none ' ' rest).map (· + (stringifyChars v).length)
  | .undef, hwf, _, _, _, _, _, _, _ => absurd hwf (by simp [wfPlain])
  | .nan, hwf, _, _, _, _, _, _, _ => absurd hwf (by simp [wfPlain])
  | .null, _, op, cl, hop, d, _, p, rest => by
    rcases hop with ⟨rfl, rfl⟩ | ⟨rfl, rfl⟩ <;>
      exact scanLoop_inert _ _ d (stringifyChars .null) (by decide) p rest
  | .bool b, _, op, cl, hop, d, _, p, rest => by
    cases b <;> rcases hop with ⟨rfl, rfl⟩ | ⟨rfl, rfl⟩ <;>
      first
      | exact scanLoop_inert _ _ d (stringifyChars (.bool false)) (by decide) p rest
      | exact scanLoop_inert _ _ d (stringifyChars (.bool true)) (by decide) p rest
  | .num q, hwf, op, cl, hop, d, _, p, rest => by
    have hden : q.den = 1 := by simpa [wfPlain] using hwf
    have hs : stringifyChars (.num q) = intChars q.num := by
      simp [stringifyChars, hden]
    rw [hs]
    exact scanLoop_inert op cl d (intChars q.num)
      (intChars_inert op cl hop q.num) p rest
  | .str s, hwf, op, cl, hop, d, _, p, rest => by
    have hall : s.data.all plainChar = true := by simpa [wfPlain] using hwf
    rw [show stringifyChars (.str s) = strLitChars s from rfl]
    exact scanLoop_strLit op cl d s hall p rest
  | .arr xs, hwf, op, cl, hop, d, hd, p, rest => by
    have hwfE : wfElems xs = true := by simpa [wfPlain] using hwf
    have hshape : stringifyChars (.arr xs) ++ rest =
        '[' :: (stringifyElems xs ++ (']' :: rest)) := by
      simp [stringifyChars]
    have hlen : (stringifyChars (.arr xs)).length =
        (stringifyElems xs).length + 2 := by
      simp [stringifyChars]
    rw [hshape, hlen]
    rcases hop with ⟨rfl, rfl⟩ | ⟨rfl, rfl⟩
    · rw [scanLoop_step_other obrace cbrace d '[' _ p (by decide) (by decide)
          (by decide) (by decide),
        scanPassElems xs hwfE obrace cbrace (Or.inl ⟨rfl, rfl⟩) d hd ' '
          (']' :: rest),
        scanLoop_step_other obrace cbrace d ']' rest ' ' (by decide) (by decide)
          (by decide) (by decide),
        optMap_add, optMap_add]
      cases scanLoop obrace cbrace d none ' ' rest <;> simp <;> omega
    · rw [scanLoop_step_opening '[' ']' d _ p (by decide) (by decide),
        scanPassElems xs hwfE '[' ']' (Or.inr ⟨rfl, rfl⟩) (d + 1) (by omega) ' '
          (']' :: rest),
        scanLoop_step_closing '[' ']' (d + 1) rest ' ' (by decide) (by decide)
          (by decide) (by omega),
        show d + 1 - 1 = d from by omega,
        optMap_add, optMap_add]
      cases scanLoop '[' ']' d none ' ' rest <;> simp <;> omega
  | .obj fs, hwf, op, cl, hop, d, hd, p, rest => by
    have hwfF : wfFields fs = true := by simpa [wfPlain] using hwf
    have hshape : stringifyChars (.obj fs) ++ rest =
        obrace :: (stringifyFields fs ++ (cbrace :: rest)) := by
      simp [stringifyChars]
    have hlen : (stringifyChars (.obj fs)).length =
        (stringifyFields fs).length + 2 := by
      simp [stringifyChars]
    rw [hshape, hlen]
    rcases hop with ⟨rfl, rfl⟩ | ⟨rfl, rfl⟩
    · rw [scanLoop_step_opening obrace cbrace d _ p (by decide) (by decide),
        scanPassFields fs hwfF obrace cbrace (Or.inl ⟨rfl, rfl⟩) (d + 1) (by omega)
          ' ' (cbrace :: rest),
        scanLoop_step_closing obrace cbrace (d + 1) rest ' ' (by decide) (by decide)
          (by decide) (by omega),
        show d + 1 - 1 = d from by omega,
        optMap_add, optMap_add]
      cases scanLoop obrace cbrace d none ' ' rest <;> simp <;> omega
    · rw [scanLoop_step_other '[' ']' d obrace _ p (by decide) (by decide)
          (by decide) (by decide),
        scanPassFields fs hwfF '[' ']' (Or.inr ⟨rfl, rfl⟩) d hd ' '
          (cbrace :: rest),
        scanLoop_step_other '[' ']' d cbrace rest ' ' (by decide) (by decide)
          (by decide) (by decide),
        optMap_add, optMap_add]
      cases scanLoop '[' ']' d none ' ' rest <;> simp <;> omega

theorem scanPassElems : ∀ (xs : List JsVal), wfElems xs = true →
    ∀ (op cl : Char), op = obrace ∧ cl = cbrace ∨ op = '[' ∧ cl = ']' →
    ∀ (d : Int), 1 ≤ d → ∀ (p : Char) (rest : List Char),
      scanLoop op cl d none p (stringifyElems xs ++ rest) =
        (scanLoop op cl d none ' ' rest).map (· + (stringifyElems xs).length)
  | [], _, op, cl, _, d, _, p, rest => by
    rw [show stringifyElems ([] : List JsVal) = [] from rfl, List.nil_append,
      scanLoop_prev op cl d rest p ' ']
    cases scanLoop op cl d none ' ' rest <;> simp
  | x :: xs, hwf, op, cl, hop, d, hd, p, rest => by
    have hwf' : wfPlain x = true ∧ wfElems xs = true := by
      simpa [wfElems] using hwf
    rw [stringifyElems_cons, List.append_assoc,
      scanPassVal x hwf'.1 op cl hop d hd p (elemsTail xs ++ rest)]
    cases xs with
    | nil =>
      rw [show elemsTail ([] : List JsVal) = [] from rfl, List.nil_append]
      cases scanLoop op cl d none ' ' rest <;> simp
    | cons y ys =>
      rw [show elemsTail (y :: ys) = ',' :: stringifyElems (y :: ys) from rfl,
        List.cons_append,
        scanLoop_step_other op cl d ',' (stringifyElems (y :: ys) ++ rest) ' '
          (by rcases hop with ⟨rfl, rfl⟩ | ⟨rfl, rfl⟩ <;> decide)
          (by rcases hop with ⟨rfl, rfl⟩ | ⟨rfl, rfl⟩ <;> decide)
          (by rcases hop with ⟨rfl, rfl⟩ | ⟨rfl, rfl⟩ <;> decide)
          (by rcases hop with ⟨rfl, rfl⟩ | ⟨rfl, rfl⟩ <;> decide),
        scanPassElems (y :: ys) hwf'.2 op cl hop d hd ' ' rest,
        optMap_add, optMap_add]
      cases scanLoop op cl d none ' ' rest <;> simp <;> omega

theorem scanPassFields : ∀ (fs : List (String × JsVal)), wfFields fs = true →
    ∀ (op cl : Char), op = obrace ∧ cl = cbrace ∨ op = '[' ∧ cl = ']' →
    ∀ (d : Int), 1 ≤ d → ∀ (p : Char) (rest : List Char),
      scanLoop op cl d none p (stringifyFields fs ++ rest) =
        (scanLoop op cl d none ' ' rest).map (· + (stringifyFields fs).length)
  | [], _, op, cl, _, d, _, p, rest => by
    rw [show stringifyFields ([] : List (String × JsVal)) = [] from rfl,
      List.nil_append, scanLoop_prev op cl d rest p ' ']
    cases scanLoop op cl d none ' ' rest <;> simp
  | kv :: fs, hwf, op, cl, hop, d, hd, p, rest => by
    have hwf' : kv.1.data.all plainChar = true ∧ wfPlain kv.2 = true ∧
        wfFields fs = true := by
      have h := hwf
      simp only [wfFields, Bool.and_eq_true] at h
      exact ⟨h.1.1, h.1.2, h.2⟩
    have hshape : stringifyFields (kv :: fs) ++ rest =
        strLitChars kv.1 ++ (':' :: (stringifyChars kv.2 ++ (fieldsTail fs ++ rest))) := by
      rw [stringifyFields_cons]
      simp
    have hlen : (stringifyFields (kv :: fs)).length =
        (strLitChars kv.1).length + 1 + (stringifyChars kv.2).length +
          (fieldsTail fs).length := by
      rw [stringifyFields_cons]
      simp
      omega
    rw [hshape, hlen,
      scanLoop_strLit op cl d kv.1 hwf'.1 p
        (':' :: (stringifyChars kv.2 ++ (fieldsTail fs ++ rest))),
      scanLoop_step_other op cl d ':' (stringifyChars kv.2 ++ (fieldsTail fs ++ rest))
        ' '
        (by rcases hop with ⟨rfl, rfl⟩ | ⟨rfl, rfl⟩ <;> decide)
        (by rcases hop with ⟨rfl, rfl⟩ | ⟨rfl, rfl⟩ <;> decide)
        (by rcases hop with ⟨rfl, rfl⟩ | ⟨rfl, rfl⟩ <;> decide)
        (by rcases hop with ⟨rfl, rfl⟩ | ⟨rfl, rfl⟩ <;> decide),
      scanPassVal kv.2 hwf'.2.1 op cl hop d hd ' ' (fieldsTail fs ++ rest)]
    cases fs with
    | nil =>
      rw [show fieldsTail ([] : List (String × JsVal)) = [] from rfl,
        List.nil_append, optMap_add, optMap_add]
      cases scanLoop op cl d none ' ' rest <;> simp <;> omega
    | cons kv₂ fs₂ =>
      rw [show fieldsTail (kv₂ :: fs₂) = ',' :: stringifyFields (kv₂ :: fs₂) from rfl,
        List.cons_append,
        scanLoop_step_other op cl d ',' (stringifyFields (kv₂ :: fs₂) ++ rest) ' '
          (by rcases hop with ⟨rfl, rfl⟩ | ⟨rfl, rfl⟩ <;> decide)
          (by rcases hop with ⟨rfl, rfl⟩ | ⟨rfl, rfl⟩ <;> decide)
          (by rcases hop with ⟨rfl, rfl⟩ | ⟨rfl, rfl⟩ <;> decide)
          (by rcases hop with ⟨rfl, rfl⟩ | ⟨rfl, rfl⟩ <;> decide),
        scanPassFields (kv₂ :: fs₂) hwf'.2.2 op cl hop d hd ' ' rest,
        optMap_add, optMap_add, optMap_add, optMap_add]
      cases scanLoop op cl d none ' ' rest <;> simp <;> omega
end

/-- The scanner started at the opening brace of a serialized object finds
its matching close brace. -/
theorem scanLoop_top_obj (fs : List (String × JsVal)) (hwf : wfFields fs = true)
    (post : List Char) :
    scanLoop obrace cbrace 0 none ' ' (stringifyChars (.obj fs) ++ post) =
      some (stringifyChars (.obj fs)).length := by
  have hshape : stringifyChars (.obj fs) ++ post =
      obrace :: (stringifyFields fs ++ (cbrace :: post)) := by
    simp [stringifyChars]
  have hlen : (stringifyChars (.obj fs)).length = (stringifyFields fs).length + 2 := by
    simp [stringifyChars]
  rw [hshape, hlen,
    scanLoop_step_opening obrace cbrace 0 _ ' ' (by decide) (by decide),
    scanPassFields fs hwf obrace cbrace (Or.inl ⟨rfl, rfl⟩) (0 + 1) (by omega) ' '
      (cbrace :: post),
    scanLoop_step_closing_done obrace cbrace (0 + 1) post ' ' (by decide) (by decide)
      (by decide) (by omega)]
  simp
  omega

/-- The scanner started at the opening bracket of a serialized array finds
its matching close bracket. -/
theorem scanLoop_top_arr (xs : List JsVal) (hwf : wfElems xs = true)
    (post : List Char) :
    scanLoop '[' ']' 0 none ' ' (stringifyChars (.arr xs) ++ post) =
      some (stringifyChars (.arr xs)).length := by
  have hshape : stringifyChars (.arr xs) ++ post =
      '[' :: (stringifyElems xs ++ (']' :: post)) := by
    simp [stringifyChars]
  have hlen : (stringifyChars (.arr xs)).length = (stringifyElems xs).length + 2 := by
    simp [stringifyChars]
  rw [hshape, hlen,
    scanLoop_step_opening '[' ']' 0 _ ' ' (by decide) (by decide),
    scanPassElems xs hwf '[' ']' (Or.inr ⟨rfl, rfl⟩) (0 + 1) (by omega) ' '
      (']' :: post),
    scanLoop_step_closing_done '[' ']' (0 + 1) post ' ' (by decide) (by decide)
      (by decide) (by omega)]
  simp
  omega


/-! ## Locating and trimming the embedded serialization -/

theorem firstIdx_append (c : Char) : ∀ (a b : List Char), (∀ x ∈ a, ¬ x = c) →
    firstIdx c (a ++ b) = (firstIdx c b).map (· + a.length) := by
  intro a
  induction a with
  | nil =>
    intro b _
    rw [List.nil_append]
    cases firstIdx c b <;> simp
  | cons x a ih =>
    intro b h
    have hx : ¬ x = c := h x (by simp)
    rw [List.cons_append]
    show firstIdx c (x :: (a ++ b)) = _
    simp only [firstIdx]
    rw [if_neg hx, ih b (fun y hy => h y (by simp [hy]))]
    cases firstIdx c b <;> simp
    omega

theorem dropWhile_head_not (p : Char → Bool) : ∀ (l : List Char) (c : Char)
    (t : List Char), l.dropWhile p = c :: t → p c = false := by
  intro l
  induction l with
  | nil => intro c t h; exact absurd h (by simp)
  | cons x xs ih =>
    intro c t h
    rw [List.dropWhile_cons] at h
    by_cases hx : p x = true
    · rw [if_pos hx] at h
      exact ih c t h
    · rw [if_neg hx] at h
      injection h with h1 _
      subst h1
      cases hpx : p x
      · rfl
      · exact absurd hpx hx

theorem isJsonWs_false_of (c : Char) (h : isJsWs c = false) : isJsonWs c = false := by
  cases hj : isJsonWs c
  · rfl
  · exfalso
    have ht : isJsWs c = true := by
      simp only [isJsonWs, Bool.or_eq_true, decide_eq_true_eq] at hj
      rcases hj with ((h1 | h1) | h1) | h1 <;> simp [isJsWs, h1]
    rw [ht] at h
    exact absurd h (by decide)

theorem jsTrimList_decomp (pre mid post : List Char)
    (hpre : pre.dropWhile isJsWs ≠ [])
    (hmid : mid ≠ [])
    (hlast : ∀ c, mid.reverse.head? = some c → isJsWs c = false) :
    jsTrimList (pre ++ (mid ++ post)) =
      pre.dropWhile isJsWs ++ (mid ++ (post.reverse.dropWhile isJsWs).reverse) := by
  obtain ⟨c, t, hct⟩ : ∃ c t, mid.reverse = c :: t := by
    cases h : mid.reverse with
    | nil => exact absurd (by simpa using congrArg List.reverse h) hmid
    | cons c t => exact ⟨c, t, rfl⟩
  have hc : isJsWs c = false := hlast c (by rw [hct]; rfl)
  unfold jsTrimList
  rw [List.dropWhile_append, if_neg (by simpa [List.isEmpty_iff] using hpre)]
  rw [List.reverse_append, List.reverse_append, List.append_assoc]
  rw [List.dropWhile_append]
  by_cases hpe : (post.reverse.dropWhile isJsWs).isEmpty = true
  · rw [if_pos hpe]
    have hpeq : post.reverse.dropWhile isJsWs = [] := by
      simpa [List.isEmpty_iff] using hpe
    rw [hct, List.cons_append,
      show (c :: (t ++ (pre.dropWhile isJsWs).reverse)).dropWhile isJsWs =
        c :: (t ++ (pre.dropWhile isJsWs).reverse) from by
          simp [List.dropWhile_cons, hc],
      ← List.cons_append, ← hct, List.reverse_append, List.reverse_reverse,
      List.reverse_reverse, hpeq]
    simp
  · rw [if_neg hpe]
    rw [List.reverse_append, List.reverse_append, List.reverse_reverse,
      List.reverse_reverse]
    simp [List.append_assoc]

theorem topContainer_cases (v : JsVal) (h : topContainer v = true) :
    (∃ fs, v = .obj fs) ∨ (∃ xs, v = .arr xs) := by
  cases v with
  | obj fs => exact Or.inl ⟨fs, rfl⟩
  | arr xs => exact Or.inr ⟨xs, rfl⟩
  | undef => exact absurd h (by simp [topContainer])
  | null => exact absurd h (by simp [topContainer])
  | bool b => exact absurd h (by simp [topContainer])
  | num q => exact absurd h (by simp [topContainer])
  | nan => exact absurd h (by simp [topContainer])
  | str s => exact absurd h (by simp [topContainer])


/-- Extraction of an object serialization embedded after prose that
contains no bracket characters and does not itself start (after leading
whitespace) with a character that can begin a JSON value. -/
theorem extractJson_embedded_obj (fs : List (String × JsVal))
    (hwf : wfFields fs = true) (preD postD : List Char)
    (hpreB : ∀ c ∈ preD, ¬ c = obrace ∧ ¬ c = '[')
    (hpne : preD.dropWhile isJsWs ≠ [])
    (hph : ∀ c, (preD.dropWhile isJsWs).head? = some c → valueStartCh c = false) :
    extractJsonFromText ⟨preD ++ (stringifyChars (JsVal.obj fs) ++ postD)⟩ =
      some ⟨stringifyChars (JsVal.obj fs)⟩ := by
  obtain ⟨c₀, A', hA⟩ : ∃ c t, preD.dropWhile isJsWs = c :: t := by
    cases h : preD.dropWhile isJsWs with
    | nil => exact absurd h hpne
    | cons c t => exact ⟨c, t, rfl⟩
  have hc₀ws : isJsWs c₀ = false := dropWhile_head_not isJsWs preD c₀ A' hA
  have hc₀bad : valueStartCh c₀ = false := hph c₀ (by rw [hA]; rfl)
  have hAmem : ∀ x ∈ c₀ :: A', x ∈ preD := by
    intro x hx
    rw [← hA] at hx
    exact (List.dropWhile_sublist _).subset hx
  have hsplit : stringifyChars (JsVal.obj fs) ++ (postD.reverse.dropWhile isJsWs).reverse =
      obrace :: ((stringifyFields fs ++ [cbrace]) ++ (postD.reverse.dropWhile isJsWs).reverse) := by
    simp [stringifyChars]
  have hmne : stringifyChars (JsVal.obj fs) ≠ [] := by simp [stringifyChars]
  have hlast : ∀ c, (stringifyChars (JsVal.obj fs)).reverse.head? = some c →
      isJsWs c = false := by
    intro c hc
    rw [show (stringifyChars (JsVal.obj fs)).reverse =
        cbrace :: ((stringifyFields fs).reverse ++ [obrace]) from by
      simp [stringifyChars]] at hc
    simp only [List.head?_cons, Option.some.injEq] at hc
    subst hc
    decide
  have htrimL : jsTrimList (preD ++ (stringifyChars (JsVal.obj fs) ++ postD)) =
      (c₀ :: A') ++ (stringifyChars (JsVal.obj fs) ++ (postD.reverse.dropWhile isJsWs).reverse) := by
    rw [jsTrimList_decomp preD _ postD hpne hmne hlast, hA]
  have hjs : jsTrim ⟨preD ++ (stringifyChars (JsVal.obj fs) ++ postD)⟩ =
      ⟨(c₀ :: A') ++ (stringifyChars (JsVal.obj fs) ++ (postD.reverse.dropWhile isJsWs).reverse)⟩ := by
    unfold jsTrim
    rw [show (⟨preD ++ (stringifyChars (JsVal.obj fs) ++ postD)⟩ : String).data =
        preD ++ (stringifyChars (JsVal.obj fs) ++ postD) from rfl, htrimL]
  have hpj : parseJson ⟨(c₀ :: A') ++ (stringifyChars (JsVal.obj fs) ++ (postD.reverse.dropWhile isJsWs).reverse)⟩ =
      none := by
    show parseJsonChars ((c₀ :: A') ++ (stringifyChars (JsVal.obj fs) ++ (postD.reverse.dropWhile isJsWs).reverse)) =
      none
    refine parseJsonChars_bad_start _ c₀
      (A' ++ (stringifyChars (JsVal.obj fs) ++ (postD.reverse.dropWhile isJsWs).reverse)) ?_ hc₀bad
    rw [List.cons_append]
    exact skipWs_cons_of (isJsonWs_false_of c₀ hc₀ws)
  have hO : firstIdx obrace ((c₀ :: A') ++ (stringifyChars (JsVal.obj fs) ++ (postD.reverse.dropWhile isJsWs).reverse)) =
      some (c₀ :: A').length := by
    rw [hsplit, firstIdx_append obrace (c₀ :: A') _
      (fun x hx => (hpreB x (hAmem x hx)).1)]
    simp [firstIdx]
  have hArr : firstIdx '[' ((c₀ :: A') ++ (stringifyChars (JsVal.obj fs) ++ (postD.reverse.dropWhile isJsWs).reverse)) =
      (firstIdx '[' ((stringifyFields fs ++ [cbrace]) ++ (postD.reverse.dropWhile isJsWs).reverse)).map
        (· + (1 + (c₀ :: A').length)) := by
    rw [hsplit, firstIdx_append '[' (c₀ :: A') _
      (fun x hx => (hpreB x (hAmem x hx)).2)]
    rw [show firstIdx '[' (obrace :: ((stringifyFields fs ++ [cbrace]) ++ (postD.reverse.dropWhile isJsWs).reverse)) =
        (firstIdx '[' ((stringifyFields fs ++ [cbrace]) ++ (postD.reverse.dropWhile isJsWs).reverse)).map (· + 1) from by
      simp only [firstIdx]
      rw [if_neg (by decide)]]
    rw [optMap_add]
  have hwfP : wfPlain (JsVal.obj fs) = true := by simpa [wfPlain] using hwf
  have hscan : scanLoop obrace cbrace 0 none ' '
      (stringifyChars (JsVal.obj fs) ++ (postD.reverse.dropWhile isJsWs).reverse) =
      some (stringifyChars (JsVal.obj fs)).length := scanLoop_top_obj fs hwf (postD.reverse.dropWhile isJsWs).reverse
  have hcand : parseJson ⟨stringifyChars (JsVal.obj fs)⟩ = some (JsVal.obj fs) :=
    parseJsonChars_stringify (JsVal.obj fs) hwfP
  simp only [extractJsonFromText]
  rw [hjs]
  rw [if_neg (show ¬ (⟨(c₀ :: A') ++ (stringifyChars (JsVal.obj fs) ++ (postD.reverse.dropWhile isJsWs).reverse)⟩ :
      String) = "" from by
    intro hcontr
    have hdata := congrArg String.data hcontr
    simp at hdata)]
  rw [hpj]
  rw [if_neg (by simp)]
  rw [show (⟨(c₀ :: A') ++ (stringifyChars (JsVal.obj fs) ++ (postD.reverse.dropWhile isJsWs).reverse)⟩ : String).data =
      (c₀ :: A') ++ (stringifyChars (JsVal.obj fs) ++ (postD.reverse.dropWhile isJsWs).reverse) from rfl]
  rw [hO, hArr]
  cases hfa : firstIdx '[' ((stringifyFields fs ++ [cbrace]) ++ (postD.reverse.dropWhile isJsWs).reverse) with
  | none =>
    simp only [Option.map_none']
    rw [List.drop_left, hscan]
    dsimp only
    rw [List.take_left, hcand]
    rw [if_pos (show (some (JsVal.obj fs)).isSome = true from rfl)]
  | some k =>
    simp only [Option.map_some']
    rw [if_pos (by omega)]
    dsimp only
    rw [List.drop_left, hscan]
    dsimp only
    rw [List.take_left, hcand]
    rw [if_pos (show (some (JsVal.obj fs)).isSome = true from rfl)]

/-- Extraction of an array serialization embedded after bracket-free
prose, mirroring the object case. -/
theorem extractJson_embedded_arr (xs : List JsVal)
    (hwf : wfElems xs = true) (preD postD : List Char)
    (hpreB : ∀ c ∈ preD, ¬ c = obrace ∧ ¬ c = '[')
    (hpne : preD.dropWhile isJsWs ≠ [])
    (hph : ∀ c, (preD.dropWhile isJsWs).head? = some c → valueStartCh c = false) :
    extractJsonFromText ⟨preD ++ (stringifyChars (JsVal.arr xs) ++ postD)⟩ =
      some ⟨stringifyChars (JsVal.arr xs)⟩ := by
  obtain ⟨c₀, A', hA⟩ : ∃ c t, preD.dropWhile isJsWs = c :: t := by
    cases h : preD.dropWhile isJsWs with
    | nil => exact absurd h hpne
    | cons c t => exact ⟨c, t, rfl⟩
  have hc₀ws : isJsWs c₀ = false := dropWhile_head_not isJsWs preD c₀ A' hA
  have hc₀bad : valueStartCh c₀ = false := hph c₀ (by rw [hA]; rfl)
  have hAmem : ∀ x ∈ c₀ :: A', x ∈ preD := by
    intro x hx
    rw [← hA] at hx
    exact (List.dropWhile_sublist _).subset hx
  have hsplit : stringifyChars (JsVal.arr xs) ++ (postD.reverse.dropWhile isJsWs).reverse =
      '[' :: ((stringifyElems xs ++ [']']) ++ (postD.reverse.dropWhile isJsWs).reverse) := by
    simp [stringifyChars]
  have hmne : stringifyChars (JsVal.arr xs) ≠ [] := by simp [stringifyChars]
  have hlast : ∀ c, (stringifyChars (JsVal.arr xs)).reverse.head? = some c →
      isJsWs c = false := by
    intro c hc
    rw [show (stringifyChars (JsVal.arr xs)).reverse =
        ']' :: ((stringifyElems xs).reverse ++ ['[']) from by
      simp [stringifyChars]] at hc
    simp only [List.head?_cons, Option.some.injEq] at hc
    subst hc
    decide
  have htrimL : jsTrimList (preD ++ (stringifyChars (JsVal.arr xs) ++ postD)) =
      (c₀ :: A') ++ (stringifyChars (JsVal.arr xs) ++ (postD.reverse.dropWhile isJsWs).reverse) := by
    rw [jsTrimList_decomp preD _ postD hpne hmne hlast, hA]
  have hjs : jsTrim ⟨preD ++ (stringifyChars (JsVal.arr xs) ++ postD)⟩ =
      ⟨(c₀ :: A') ++ (stringifyChars (JsVal.arr xs) ++ (postD.reverse.dropWhile isJsWs).reverse)⟩ := by
    unfold jsTrim
    rw [show (⟨preD ++ (stringifyChars (JsVal.arr xs) ++ postD)⟩ : String).data =
        preD ++ (stringifyChars (JsVal.arr xs) ++ postD) from rfl, htrimL]
  have hpj : parseJson ⟨(c₀ :: A') ++ (stringifyChars (JsVal.arr xs) ++ (postD.reverse.dropWhile isJsWs).reverse)⟩ =
      none := by
    show parseJsonChars ((c₀ :: A') ++ (stringifyChars (JsVal.arr xs) ++ (postD.reverse.dropWhile isJsWs).reverse)) =
      none
    refine parseJsonChars_bad_start _ c₀
      (A' ++ (stringifyChars (JsVal.arr xs) ++ (postD.reverse.dropWhile isJsWs).reverse)) ?_ hc₀bad
    rw [List.cons_append]
    exact skipWs_cons_of (isJsonWs_false_of c₀ hc₀ws)
  have hArr : firstIdx '[' ((c₀ :: A') ++ (stringifyChars (JsVal.arr xs) ++ (postD.reverse.dropWhile isJsWs).reverse)) =
      some (c₀ :: A').length := by
    rw [hsplit, firstIdx_append '[' (c₀ :: A') _
      (fun x hx => (hpreB x (hAmem x hx)).2)]
    simp [firstIdx]
  have hO : firstIdx obrace ((c₀ :: A') ++ (stringifyChars (JsVal.arr xs) ++ (postD.reverse.dropWhile isJsWs).reverse)) =
      (firstIdx obrace ((stringifyElems xs ++ [']']) ++ (postD.reverse.dropWhile isJsWs).reverse)).map
        (· + (1 + (c₀ :: A').length)) := by
    rw [hsplit, firstIdx_append obrace (c₀ :: A') _
      (fun x hx => (hpreB x (hAmem x hx)).1)]
    rw [show firstIdx obrace ('[' :: ((stringifyElems xs ++ [']']) ++ (postD.reverse.dropWhile isJsWs).reverse)) =
        (firstIdx obrace ((stringifyElems xs ++ [']']) ++ (postD.reverse.dropWhile isJsWs).reverse)).map (· + 1) from by
      simp only [firstIdx]
      rw [if_neg (by decide)]]
    rw [optMap_add]
  have hwfP : wfPlain (JsVal.arr xs) = true := by simpa [wfPlain] using hwf
  have hscan : scanLoop '[' ']' 0 none ' '
      (stringifyChars (JsVal.arr xs) ++ (postD.reverse.dropWhile isJsWs).reverse) =
      some (stringifyChars (JsVal.arr xs)).length := scanLoop_top_arr xs hwf (postD.reverse.dropWhile isJsWs).reverse
  have hcand : parseJson ⟨stringifyChars (JsVal.arr xs)⟩ = some (JsVal.arr xs) :=
    parseJsonChars_stringify (JsVal.arr xs) hwfP
  simp only [extractJsonFromText]
  rw [hjs]
  rw [if_neg (show ¬ (⟨(c₀ :: A') ++ (stringifyChars (JsVal.arr xs) ++ (postD.reverse.dropWhile isJsWs).reverse)⟩ :
      String) = "" from by
    intro hcontr
    have hdata := congrArg String.data hcontr
    simp at hdata)]
  rw [hpj]
  rw [if_neg (by simp)]
  rw [show (⟨(c₀ :: A') ++ (stringifyChars (JsVal.arr xs) ++ (postD.reverse.dropWhile isJsWs).reverse)⟩ : String).data =
      (c₀ :: A') ++ (stringifyChars (JsVal.arr xs) ++ (postD.reverse.dropWhile isJsWs).reverse) from rfl]
  rw [hArr, hO]
  cases hfa : firstIdx obrace ((stringifyElems xs ++ [']']) ++ (postD.reverse.dropWhile isJsWs).reverse) with
  | none =>
    simp only [Option.map_none']
    rw [List.drop_left, hscan]
    dsimp only
    rw [List.take_left, hcand]
    rw [if_pos (show (some (JsVal.arr xs)).isSome = true from rfl)]
  | some k =>
    simp only [Option.map_some']
    rw [if_neg (by omega)]
    dsimp only
    rw [List.drop_left, hscan]
    dsimp only
    rw [List.take_left, hcand]
    rw [if_pos (show (some (JsVal.arr xs)).isSome = true from rfl)]

/-! ## Claim theorems -/

/-- C2 counterexample, two independent failures of the unrestricted
round-trip. First, prose may contain brackets: the empty object is a valid
JSON value and its serialization parses, yet embedding it in the prose
"a \x7b b \x7d " makes the extractor lock onto the first brace of the
prose, scan the unparseable candidate "\x7b b \x7d", and return nothing.
Second, escapes defeat the scanner even under bracket-free prose: the
object whose member "p" is a single backslash is a valid JSON value whose
serialization strict-parses back to it, but at its closing quote the
previous character is the second backslash of the escaped pair, so the
scanner's escape check keeps it in-string and the extractor returns
nothing. -/
theorem extractJson_roundtrip_counterexample :
    (parseJson ⟨stringifyChars (.obj [])⟩ = some (.obj []) ∧
      extractJsonFromText ("a \x7b b \x7d " ++ ⟨stringifyChars (.obj [])⟩) =
        none) ∧
    (parseJson "\x7b\"p\":\"\\\\\"\x7d" = some (.obj [("p", .str "\\")]) ∧
      extractJsonFromText "x: \x7b\"p\":\"\\\\\"\x7d" = none) := by
  have hesc : parseStringBody (bslash :: bslash :: dquote :: [cbrace]) =
      some (⟨[bslash]⟩, [cbrace]) := by
    rw [parseStringBody.eq_def]
    dsimp only
    rw [if_neg (show ¬ bslash = dquote by decide),
      if_pos (show bslash = bslash from rfl)]
    rw [if_neg (show ¬ bslash = dquote by decide),
      if_pos (show bslash = bslash from rfl), parseStringBody_dquote]
    rfl
  have hkey : parseStringBody
      ('p' :: dquote :: ':' :: dquote :: bslash :: bslash :: dquote :: cbrace :: []) =
      some (⟨['p']⟩, ':' :: dquote :: bslash :: bslash :: dquote :: cbrace :: []) := by
    have h := parseStringBody_plain ['p']
      (':' :: dquote :: bslash :: bslash :: dquote :: cbrace :: []) (by decide)
    simpa using h
  have hv : parseVal 20 (dquote :: bslash :: bslash :: dquote :: cbrace :: []) =
      some (.str ⟨[bslash]⟩, [cbrace]) := by
    rw [parseVal.eq_def]
    dsimp only
    rw [skipWs_cons_of (show isJsonWs dquote = false by decide)]
    dsimp only
    rw [if_neg (show ¬ dquote = obrace by decide),
      if_neg (show ¬ dquote = '[' by decide),
      if_pos (show dquote = dquote from rfl), hesc]
    rfl
  have hfields : parseFields 21
      (dquote :: 'p' :: dquote :: ':' :: dquote :: bslash :: bslash :: dquote ::
        cbrace :: []) =
      some ([(⟨['p']⟩, .str ⟨[bslash]⟩)], []) := by
    rw [parseFields.eq_def]
    dsimp only
    rw [skipWs_cons_of (show isJsonWs dquote = false by decide)]
    dsimp only
    rw [if_pos (show dquote = dquote from rfl), hkey]
    dsimp only
    rw [skipWs_cons_of (show isJsonWs ':' = false by decide)]
    change (match parseVal 20 (dquote :: bslash :: bslash :: dquote :: cbrace :: []) with
      | some (v, r₃) =>
        match skipWs r₃ with
        | c₂ :: r₄ =>
          if c₂ = ',' then
            Option.map (fun fr : List (String × JsVal) × List Char =>
              ((String.mk ['p'], v) :: fr.1, fr.2)) (parseFields 20 r₄)
          else if c₂ = cbrace then some ([(String.mk ['p'], v)], r₄)
          else none
        | [] => none
      | none => none) = _
    rw [hv]
    dsimp only
    rw [skipWs_cons_of (show isJsonWs cbrace = false by decide)]
    dsimp only
    rw [if_neg (show ¬ cbrace = ',' by decide),
      if_pos (show cbrace = cbrace from rfl)]
  have hmain : parseJsonChars
      (obrace :: dquote :: 'p' :: dquote :: ':' :: dquote :: bslash :: bslash ::
        dquote :: cbrace :: []) =
      some (.obj [(⟨['p']⟩, .str ⟨[bslash]⟩)]) := by
    unfold parseJsonChars
    rw [show 2 * (obrace :: dquote :: 'p' :: dquote :: ':' :: dquote :: bslash ::
        bslash :: dquote :: cbrace :: ([] : List Char)).length + 2 = 21 + 1 from by
      rfl]
    rw [parseVal.eq_def]
    dsimp only
    rw [skipWs_cons_of (show isJsonWs obrace = false by decide)]
    dsimp only
    rw [if_pos (show obrace = obrace from rfl),
      skipWs_cons_of (show isJsonWs dquote = false by decide)]
    dsimp only
    rw [if_neg (show ¬ dquote = cbrace by decide), hfields]
    rfl
  refine ⟨⟨rfl, rfl⟩, ?_, rfl⟩
  show parseJsonChars
      (obrace :: dquote :: 'p' :: dquote :: ':' :: dquote :: bslash :: bslash ::
        dquote :: cbrace :: []) = _
  rw [hmain]
  rfl

/-- C2 (amended): for a well-formed container value v (an object or array
with no undefined/NaN members, integer-valued numbers, and strings free of
characters JSON would escape), embedding the serialization of v between a
prose prefix that contains no opening-bracket characters and whose first
non-whitespace character cannot begin a JSON value, and an arbitrary
suffix, extractJsonFromText returns exactly the serialization of v, and
that string strict-parses back to a value deep-equal to v. -/
theorem extractJson_roundtrip_amended (v : JsVal) (pre post : String)
    (hwf : wfPlain v = true) (htop : topContainer v = true)
    (hpre : pre.data.all (fun c => !(c = obrace) && !(c = '[')) = true)
    (hpne : pre.data.dropWhile isJsWs ≠ [])
    (hph : ((pre.data.dropWhile isJsWs).take 1).all
      (fun c => !(valueStartCh c)) = true) :
    extractJsonFromText (pre ++ ⟨stringifyChars v⟩ ++ post) =
        some ⟨stringifyChars v⟩ ∧
      parseJson ⟨stringifyChars v⟩ = some v := by
  have hpreB : ∀ c ∈ pre.data, ¬ c = obrace ∧ ¬ c = '[' := by
    intro c hc
    have h := (List.all_eq_true.mp hpre) c hc
    simp only [Bool.and_eq_true, Bool.not_eq_true', decide_eq_false_iff_not] at h
    exact h
  have hph' : ∀ c, (pre.data.dropWhile isJsWs).head? = some c →
      valueStartCh c = false := by
    intro c hc
    obtain ⟨t, ht⟩ : ∃ t, pre.data.dropWhile isJsWs = c :: t := by
      cases hd : pre.data.dropWhile isJsWs with
      | nil => rw [hd] at hc; exact absurd hc (by simp)
      | cons x t =>
        rw [hd] at hc
        simp only [List.head?_cons, Option.some.injEq] at hc
        subst hc
        exact ⟨t, rfl⟩
    rw [ht] at hph
    simpa using hph
  have hdata : (pre ++ ⟨stringifyChars v⟩ ++ post).data =
      pre.data ++ (stringifyChars v ++ post.data) := by
    rw [String.data_append, String.data_append]
    show (pre.data ++ stringifyChars v) ++ post.data = _
    rw [List.append_assoc]
  have hstr : (pre ++ ⟨stringifyChars v⟩ ++ post : String) =
      ⟨pre.data ++ (stringifyChars v ++ post.data)⟩ := congrArg String.mk hdata
  rcases topContainer_cases v htop with ⟨fs, rfl⟩ | ⟨xs, rfl⟩
  · constructor
    · rw [hstr]
      exact extractJson_embedded_obj fs (by simpa [wfPlain] using hwf) pre.data
        post.data hpreB hpne hph'
    · exact parseJsonChars_stringify (JsVal.obj fs) hwf
  · constructor
    · rw [hstr]
      exact extractJson_embedded_arr xs (by simpa [wfPlain] using hwf) pre.data
        post.data hpreB hpne hph'
    · exact parseJsonChars_stringify (JsVal.arr xs) hwf

/-- C2 amended-claim witness: the object (a: "b") serialized between the
prose "see: " and the suffix " thanks" is recovered exactly and parses
back to itself. -/
theorem extractJson_roundtrip_amended_witness :
    extractJsonFromText ("see: " ++ ⟨stringifyChars (.obj [("a", .str "b")])⟩ ++
        " thanks") = some ⟨stringifyChars (.obj [("a", .str "b")])⟩ ∧
      parseJson ⟨stringifyChars (.obj [("a", .str "b")])⟩ =
        some (.obj [("a", .str "b")]) :=
  extractJson_roundtrip_amended (.obj [("a", .str "b")]) "see: " " thanks"
    (by decide) (by decide) (by decide) (by decide) (by decide)

/-- C5: on the input lines `["Error: boom", "  at foo (a.js:1)",
"  at bar (b.js:2)", "next unrelated line"]` the log parser produces
exactly two blocks: one three-line stack block with level "error" covering
the first three lines, and one single-line block with level "info" for the
last line. -/
theorem parseLogs_grouping_example :
    LogViewer.parseLogs
        ["Error: boom", "  at foo (a.js:1)", "  at bar (b.js:2)",
         "next unrelated line"] =
      [{ id := 0, level := "error"
         lines := ["Error: boom", "  at foo (a.js:1)", "  at bar (b.js:2)"]
         isStack := true
         raw := "Error: boom\n  at foo (a.js:1)\n  at bar (b.js:2)" },
       { id := 1, level := "info", lines := ["next unrelated line"]
         isStack := false, raw := "next unrelated line" }] := by
  rfl

/-- C6: on `"# Title\n\nSome text\n\n- a\n- b"` the block parser yields
exactly an h1 block "Title" (slug "title"), a paragraph "Some text" and an
unordered list with items `a` and `b` (blank lines yield no blocks), and
the table of contents holds the single entry `(1, "Title", "title")`. -/
theorem markdown_parse_example :
    Markdown.parseBlocks "# Title\n\nSome text\n\n- a\n- b" =
        [.h 1 "Title" "title", .p "Some text", .ul [(0, "a"), (0, "b")]] ∧
      Markdown.extractToc "# Title\n\nSome text\n\n- a\n- b" =
        [{ level := 1, text := "Title", id := "title" }] := by
  constructor
  · rfl
  · rfl

/-- C10: JSON-viewer normalization treats nullish raw input as the empty
state `(\x7b\x7d, null)` with no error, while an already-parsed top-level
array — or any other non-string, non-object value — yields
`(null, "Invalid JSON format")`, even though the same array in JSON string
form (`"[1,2]"`) parses without error. -/
theorem jsonViewer_normalize_edge :
    (∀ dv jv : JsVal, (dv.orNullish jv).isNullish = true →
        JsonViewer.normalizeData [("data", dv), ("jsonObject", jv)] =
          ⟨some (.obj []), none⟩) ∧
      (∀ xs : List JsVal,
        JsonViewer.normalizeData [("data", .arr xs)] =
          ⟨none, some "Invalid JSON format"⟩) ∧
      (∀ q : Rat,
        JsonViewer.normalizeData [("data", .num q)] =
          ⟨none, some "Invalid JSON format"⟩) ∧
      (∀ b : Bool,
        JsonViewer.normalizeData [("data", .bool b)] =
          ⟨none, some "Invalid JSON format"⟩) ∧
      JsonViewer.normalizeData [("data", .nan)] =
        ⟨none, some "Invalid JSON format"⟩ ∧
      JsonViewer.normalizeData [("data", .str "[1,2]")] =
        ⟨some (.arr [.num 1, .num 2]), none⟩ := by
  refine ⟨?_, ?_, ?_, ?_, ?_, ?_⟩
  · intro dv jv h
    cases dv <;> cases jv <;>
      first
      | rfl
      | simp_all [JsVal.orNullish, JsVal.isNullish]
  · intro xs; rfl
  · intro q; rfl
  · intro b; rfl
  · rfl
  · rfl

/-- C10 witness: nullish raw data yields the empty state. -/
theorem jsonViewer_normalize_edge_witness :
    JsonViewer.normalizeData [("data", JsVal.null), ("jsonObject", JsVal.undef)] =
      ⟨some (.obj []), none⟩ :=
  jsonViewer_normalize_edge.1 .null .undef (by decide)

/-- C4: tabular normalization returns the array itself with no error for
any array whose first element is a non-array object, and returns
`(null, "Invalid JSON")` — instead of throwing — for any string that is not
valid JSON. -/
theorem tabular_extraction_contract :
    (∀ (first : JsVal) (rest : List JsVal),
        TableViewer.isPlainObject first = true →
        TableViewer.normalizeInput (.arr (first :: rest)) =
          ⟨some (first :: rest), none⟩) ∧
      ∀ s : String, parseJson s = none →
        TableViewer.normalizeInput (.str s) = ⟨none, some "Invalid JSON"⟩ := by
  constructor
  · intro first rest h
    simp [TableViewer.normalizeInput, TableViewer.extractRows, JsVal.isNullish, h]
  · intro s h
    simp [TableViewer.normalizeInput, h]

/-- C4 witness: a one-row array of objects round-trips; `"nope"` reports
"Invalid JSON". -/
theorem tabular_extraction_contract_witness :
    TableViewer.normalizeInput (.arr [.obj [("a", .num 1)]]) =
        ⟨some [.obj [("a", .num 1)]], none⟩ ∧
      TableViewer.normalizeInput (.str "nope") = ⟨none, some "Invalid JSON"⟩ :=
  ⟨tabular_extraction_contract.1 _ [] (by decide),
   tabular_extraction_contract.2 "nope" (by decide)⟩

/-- C7: for every non-empty extracted row set on which the detector finds
exactly one numeric key, a row count of at most 10 forces the suggested
chart kind "pie" — this branch precedes (and so overrides) the
date-label/monotone line rule. -/
theorem chart_pie_tiebreak :
    ∀ (r₀ : JsVal) (rest : List JsVal),
      (ChartViewer.detectColumns (r₀ :: rest)).numericKeys.length = 1 →
      (r₀ :: rest).length ≤ 10 →
      (ChartViewer.detectColumns (r₀ :: rest)).suggestedType = .pie := by
  intro r₀ rest h1 h2
  simp only [ChartViewer.detectColumns] at h1 ⊢
  rw [h1]
  simp [h2]
  intro hlt
  exfalso
  simp only [List.length_cons] at h2
  omega

/-- C7 witness: the three-row Jan/Feb/Mar example (monotone values, one
numeric key) suggests "pie", not "line". -/
theorem chart_pie_tiebreak_witness :
    (ChartViewer.detectColumns
        [.obj [("name", .str "Jan"), ("value", .num 10)],
         .obj [("name", .str "Feb"), ("value", .num 20)],
         .obj [("name", .str "Mar"), ("value", .num 35)]]).suggestedType =
      ChartViewer.ChartType.pie :=
  chart_pie_tiebreak _ _ (by decide) (by decide)

/-- C8 counterexample: on first row `(id: 1, name: "x")` the label key is
"id" (the first object key that belongs to the candidate set), not "name"
as candidate-priority order would demand. -/
theorem chart_labelKey_counterexample :
    (ChartViewer.detectColumns [.obj [("id", .num 1), ("name", .str "x")]]).labelKey
        = "id" ∧
      (ChartViewer.detectColumns [.obj [("id", .num 1), ("name", .str "x")]]).labelKey
        ≠ "name" := by
  constructor
  · decide
  · decide

/-- C8 (amended): the label key is the first key of the first row, in key
order, that belongs to the candidate set name/label/day/category/id/x;
if no key is a candidate, the first string-valued key; if neither exists,
the first key (or "name" when there are no keys or the first key is the
empty string). -/
theorem chart_labelKey_selection :
    ∀ (r₀ : JsVal) (rest : List JsVal),
      (∀ (pre : List String) (k : String) (post : List String),
          ChartViewer.jsKeys r₀ = pre ++ k :: post →
          ChartViewer.labelCandidates.contains k = true →
          (∀ k' ∈ pre, ChartViewer.labelCandidates.contains k' = false) →
          (ChartViewer.detectColumns (r₀ :: rest)).labelKey = k) ∧
        ((∀ k' ∈ ChartViewer.jsKeys r₀,
            ChartViewer.labelCandidates.contains k' = false) →
          ∀ (pre : List String) (k : String) (post : List String),
            ChartViewer.jsKeys r₀ = pre ++ k :: post →
            (r₀.getField k).isString = true →
            (∀ k' ∈ pre, (r₀.getField k').isString = false) →
            (ChartViewer.detectColumns (r₀ :: rest)).labelKey = k) ∧
        ((∀ k' ∈ ChartViewer.jsKeys r₀,
            ChartViewer.labelCandidates.contains k' = false ∧
              (r₀.getField k').isString = false) →
          (ChartViewer.detectColumns (r₀ :: rest)).labelKey =
            match ChartViewer.jsKeys r₀ with
            | [] => "name"
            | k :: _ => if k = "" then "name" else k) := by
  intro r₀ rest
  refine ⟨?_, ?_, ?_⟩
  · intro pre k post hsplit hk hpre
    simp only [ChartViewer.detectColumns]
    rw [hsplit, find?_first _ pre k post hk hpre]
  · intro hnone pre k post hsplit hk hpre
    simp only [ChartViewer.detectColumns]
    rw [hsplit]
    rw [List.find?_eq_none.mpr (fun x hx => by
      have hx' : x ∈ ChartViewer.jsKeys r₀ := by rw [hsplit]; exact hx
      show ¬ (ChartViewer.labelCandidates.contains x = true)
      rw [hnone x hx']
      exact Bool.false_ne_true)]
    rw [find?_first _ pre k post hk hpre]
  · intro hnone
    simp only [ChartViewer.detectColumns]
    rw [List.find?_eq_none.mpr (fun x hx => by
      show ¬ (ChartViewer.labelCandidates.contains x = true)
      rw [(hnone x hx).1]
      exact Bool.false_ne_true)]
    rw [List.find?_eq_none.mpr (fun x hx => by
      show ¬ ((r₀.getField x).isString = true)
      rw [(hnone x hx).2]
      exact Bool.false_ne_true)]

/-- C8 amended-claim witness: on first row `(id: 1, name: "x")` the first
key "id" is a candidate, so it is chosen. -/
theorem chart_labelKey_selection_witness :
    (ChartViewer.detectColumns [.obj [("id", .num 1), ("name", .str "x")]]).labelKey
      = "id" :=
  (chart_labelKey_selection (.obj [("id", .num 1), ("name", .str "x")]) []).1
    [] "id" ["name"] (by decide) (by decide) (by intro k hk; simp at hk)

/-- C3: closing a widget removes exactly that instance (given the ids are
distinct); when it was the active widget, the new active id is the last
remaining instance's id in insertion order, or null when none remain; in
particular closing the only open widget leaves no open widgets and a null
active id. -/
theorem closeTool_postcondition :
    ∀ (s : WorkspaceState) (pre post : List ToolInstance) (w : ToolInstance),
      s.openTools = pre ++ w :: post →
      (s.openTools.map (fun t => t.id)).Nodup →
      (closeTool s w.id).openTools = pre ++ post ∧
        (s.activeToolId = some w.id →
          (closeTool s w.id).activeToolId =
            (pre ++ post).getLast?.map (fun t => t.id)) ∧
        (s.activeToolId ≠ some w.id →
          (closeTool s w.id).activeToolId = s.activeToolId) ∧
        (pre = [] → post = [] →
          s.activeToolId = some w.id ∨ s.activeToolId = none →
          (closeTool s w.id).openTools = [] ∧
            (closeTool s w.id).activeToolId = none) := by
  intro s pre post w hsplit hnodup
  rw [hsplit, List.map_append, List.map_cons] at hnodup
  have hdisj := List.disjoint_of_nodup_append hnodup
  have hwpre : w.id ∉ pre.map (fun t => t.id) :=
    fun hmem => hdisj hmem (List.mem_cons_self _ _)
  have hwpost : w.id ∉ post.map (fun t => t.id) :=
    (List.nodup_cons.mp (hnodup.of_append_right)).1
  have hpre : ∀ t ∈ pre, t.id ≠ w.id := by
    intro t ht heq
    exact hwpre (heq ▸ List.mem_map_of_mem _ ht)
  have hpost : ∀ t ∈ post, t.id ≠ w.id := by
    intro t ht heq
    exact hwpost (heq ▸ List.mem_map_of_mem _ ht)
  have hfilter : (closeTool s w.id).openTools = pre ++ post := by
    show (s.openTools.filter (fun t => ¬ t.id = w.id)) = pre ++ post
    rw [hsplit, List.filter_append, List.filter_cons]
    rw [List.filter_eq_self.mpr (fun t ht => by simpa using hpre t ht)]
    rw [List.filter_eq_self.mpr (fun t ht => by simpa using hpost t ht)]
    simp
  refine ⟨hfilter, ?_, ?_, ?_⟩
  · intro hact
    show (if s.activeToolId = some w.id then _ else _) = _
    rw [if_pos hact]
    have : (closeTool s w.id).openTools = pre ++ post := hfilter
    show (match (s.openTools.filter (fun t => ¬ t.id = w.id)).getLast? with
      | some t => some t.id
      | none => none) = _
    rw [show s.openTools.filter (fun t => ¬ t.id = w.id) = pre ++ post from hfilter]
    cases (pre ++ post).getLast? <;> rfl
  · intro hact
    show (if s.activeToolId = some w.id then _ else _) = _
    rw [if_neg hact]
  · rintro rfl rfl hact
    refine ⟨hfilter, ?_⟩
    rcases hact with hact | hact
    · show (if s.activeToolId = some w.id then _ else _) = _
      rw [if_pos hact]
      show (match (s.openTools.filter (fun t => ¬ t.id = w.id)).getLast? with
        | some t => some t.id
        | none => none) = _
      rw [show s.openTools.filter (fun t => ¬ t.id = w.id) = ([] : List ToolInstance) from hfilter]
      rfl
    · show (if s.activeToolId = some w.id then _ else _) = _
      rw [hact]
      simp

/-- C3 witness: closing the only open widget of a one-widget session. -/
theorem closeTool_postcondition_witness :
    (closeTool ⟨some "a", [⟨"a", .JsonViewer, "JsonViewer #1", [], 0⟩], []⟩ "a").openTools
        = [] ∧
      (closeTool ⟨some "a", [⟨"a", .JsonViewer, "JsonViewer #1", [], 0⟩], []⟩ "a").activeToolId
        = none :=
  (closeTool_postcondition ⟨some "a", [⟨"a", .JsonViewer, "JsonViewer #1", [], 0⟩], []⟩
      [] [] ⟨"a", .JsonViewer, "JsonViewer #1", [], 0⟩ rfl (by simp)).2.2.2
    rfl rfl (Or.inl rfl)

/-- Appending one created widget changes the per-message count by exactly
one when the tag matches. -/
theorem createdFor_append (consumed' : List String) (st : ResolverState)
    (id : String) (tp : ToolType) (mid : String) :
    createdFor ⟨consumed', st.created ++ [(id, tp)]⟩ mid =
      createdFor st mid + (if id = mid then 1 else 0) := by
  unfold createdFor
  rw [List.filter_append, List.length_append]
  congr 1
  by_cases h : id = mid <;> simp [h]

/-- One step of the `thread.messages` effect preserves the consumption
invariant: at most one widget ever created for a given message id, and none
before the id is recorded as consumed. -/
theorem processMsg_inv (mid : String) (st : ResolverState) (m : ThreadMsg)
    (h1 : createdFor st mid ≤ 1)
    (h2 : st.consumed.contains mid = false → createdFor st mid = 0) :
    createdFor (processMsg st m) mid ≤ 1 ∧
      ((processMsg st m).consumed.contains mid = false →
        createdFor (processMsg st m) mid = 0) := by
  cases hcm : m.component with
  | none => simp only [processMsg, hcm]; exact ⟨h1, h2⟩
  | some np =>
    obtain ⟨name, props⟩ := np
    simp only [processMsg, hcm]
    by_cases hg : (decide (m.role = "assistant") && decide (name ≠ "") &&
        !st.consumed.contains m.id) = true
    · rw [if_pos hg]
      cases htc : tamboComponentToTool name props with
      | none => exact ⟨h1, h2⟩
      | some tp =>
        have hcons : st.consumed.contains m.id = false := by
          have := (Bool.and_eq_true _ _ |>.mp hg).2
          simpa using this
        by_cases hid : m.id = mid
        · subst hid
          have hz : createdFor st m.id = 0 := h2 hcons
          constructor
          · simp [createdFor_append, hz]
          · intro hfalse
            exfalso
            simp [List.contains_cons] at hfalse
        · constructor
          · simpa [createdFor_append, hid] using h1
          · intro hfalse
            simp only [List.contains_cons] at hfalse
            have : st.consumed.contains mid = false := by
              rcases Bool.or_eq_false_iff.mp hfalse with ⟨_, h⟩
              exact h
            simpa [createdFor_append, hid] using h2 this
    · rw [if_neg hg]
      exact ⟨h1, h2⟩

/-- The invariant is preserved along a whole message list. -/
theorem processMessages_inv (mid : String) (msgs : List ThreadMsg) :
    ∀ st : ResolverState,
      createdFor st mid ≤ 1 →
      (st.consumed.contains mid = false → createdFor st mid = 0) →
      createdFor (processMessages st msgs) mid ≤ 1 ∧
        ((processMessages st msgs).consumed.contains mid = false →
          createdFor (processMessages st msgs) mid = 0) := by
  induction msgs with
  | nil => intro st h1 h2; exact ⟨h1, h2⟩
  | cons m rest ih =>
    intro st h1 h2
    have step := processMsg_inv mid st m h1 h2
    exact ih (processMsg st m) step.1 step.2

/-- C1: processing the thread's message list any number of times creates at
most one widget per directive-carrying assistant message, keyed by message
id — once the id is recorded as consumed, re-processing never creates a
second widget. -/
theorem directive_consumption_idempotent :
    ∀ (msgs : List ThreadMsg) (k : Nat) (mid : String),
      createdFor
        (processMessages initialResolverState (List.flatten (List.replicate k msgs)))
        mid ≤ 1 := by
  intro msgs k mid
  exact (processMessages_inv mid (List.flatten (List.replicate k msgs))
    initialResolverState (by simp [createdFor, initialResolverState])
    (fun _ => by simp [createdFor, initialResolverState])).1

/-- Reading back the key just written by the spread-override. -/
theorem payload_get_set (p : Payload) (k : String) (v : JsVal) :
    (p.set k v).get k = v := by
  have aux : ∀ q : Payload,
      (q.map (fun kv => if kv.1 = k then (k, v) else kv)).find?
          (fun kv => kv.1 = k) =
        if (q.find? (fun kv => kv.1 = k)).isSome then some (k, v) else none := by
    intro q
    induction q with
    | nil => simp
    | cons kv q ih =>
      by_cases hk : kv.1 = k
      · simp [hk, List.find?_cons_of_pos]
      · rw [List.map_cons, if_neg hk,
          List.find?_cons_of_neg _ (by simpa using hk),
          List.find?_cons_of_neg _ (by simpa using hk), ih]
  unfold Payload.set Payload.get JsVal.getField
  by_cases h : (p.find? (fun kv => kv.1 = k)).isSome
  · rw [if_pos h]
    show (match (p.map fun kv => if kv.1 = k then (k, v) else kv).find?
        (fun kv => kv.1 = k) with
      | some kv => kv.2
      | none => JsVal.undef) = v
    rw [aux p, if_pos h]
  · rw [if_neg h]
    show (match (p ++ [(k, v)]).find? (fun kv => kv.1 = k) with
      | some kv => kv.2
      | none => JsVal.undef) = v
    rw [List.find?_append, Option.not_isSome_iff_eq_none.mp h]
    simp

/-- C9 counterexample: a user message of the form "[ERROR] ..." does not
match the level predicate (which requires a closing bracket before the
level word), so the enrichment falls back to the plain most-recent user
message instead of preferring the bracketed-level message. -/
theorem logviewer_enrichment_counterexample :
    (enrichLogViewerPayload [("logs", JsVal.undef)]
        [⟨"m1", "user", none, .str "[ERROR] db down"⟩,
         ⟨"m2", "user", none, .str "thanks"⟩]).get "logs" = .str "thanks" ∧
      JsVal.str "thanks" ≠ .str "[ERROR] db down" := by
  constructor
  · decide
  · decide

/-- C9 (amended): with empty/absent logs, the resolver fills the logs field
with the text of the newest user message matching the log-signature
predicate — an ISO-timestamp-in-brackets pattern, or a level word
(INFO/ERROR/WARN/DEBUG/AUTH/CRON/WORKER) preceded by a closing bracket and
followed by whitespace — and only when no user message matches does it fall
back to the most-recent user message's text. -/
theorem logviewer_enrichment_selection :
    (∀ (payload : Payload) (pre post : List ThreadMsg) (m : ThreadMsg),
        logsIsEmpty (payload.get "logs") = true →
        logSignatureMatch m = true →
        (∀ m' ∈ post, logSignatureMatch m' = false) →
        (enrichLogViewerPayload payload (pre ++ m :: post)).get "logs" =
          .str (contentToText m.content)) ∧
      ∀ (payload : Payload) (msgs : List ThreadMsg),
        logsIsEmpty (payload.get "logs") = true →
        (∀ m' ∈ msgs, logSignatureMatch m' = false) →
        (enrichLogViewerPayload payload msgs).get "logs" =
          (if getLastUserMessageText msgs = "" then payload.get "logs"
           else .str (getLastUserMessageText msgs)) := by
  constructor
  · intro payload pre post m hempty hm hpost
    have hfind : (pre ++ m :: post).reverse.find? logSignatureMatch = some m := by
      rw [List.reverse_append, List.reverse_cons, List.append_assoc,
        List.singleton_append]
      exact find?_first _ _ _ _ hm (fun y hy => hpost y (List.mem_reverse.mp hy))
    have hne : contentToText m.content ≠ "" := by
      unfold logSignatureMatch at hm
      have h2 := (Bool.and_eq_true _ _ |>.mp hm).2
      have h3 := (Bool.and_eq_true _ _ |>.mp h2).1
      simpa using h3
    unfold enrichLogViewerPayload
    rw [if_pos hempty]
    unfold getLastUserMessageTextLikeLogs
    rw [hfind]
    rw [if_pos hne]
    exact payload_get_set payload "logs" (.str (contentToText m.content))
  · intro payload msgs hempty hnone
    have hfind : msgs.reverse.find? logSignatureMatch = none :=
      List.find?_eq_none.mpr (fun x hx => by
        rw [hnone x (List.mem_reverse.mp hx)]
        exact Bool.false_ne_true)
    unfold enrichLogViewerPayload
    rw [if_pos hempty]
    unfold getLastUserMessageTextLikeLogs
    rw [hfind]
    by_cases h : getLastUserMessageText msgs = ""
    · rw [if_neg (by simpa using h), if_pos h]
    · rw [if_pos h, if_neg (by simpa using h)]
      exact payload_get_set payload "logs" (.str (getLastUserMessageText msgs))

/-- C9 witness: a bracketed-timestamp-then-ERROR paste is preferred over a
newer short "thanks" message. -/
theorem logviewer_enrichment_selection_witness :
    (enrichLogViewerPayload [("logs", JsVal.undef)]
        [⟨"m1", "user", none, .str "[10:00:00] ERROR db down"⟩,
         ⟨"m2", "user", none, .str "thanks"⟩]).get "logs" =
      .str "[10:00:00] ERROR db down" :=
  logviewer_enrichment_selection.1 [("logs", JsVal.undef)] []
    [⟨"m2", "user", none, .str "thanks"⟩]
    ⟨"m1", "user", none, .str "[10:00:00] ERROR db down"⟩
    (by decide) (by decide)
    (by intro m' hm'; simp at hm'; subst hm'; decide)

end DevOS
